import Mathlib

/-
Verification development for the chat-completion orchestration layer in
src/phi/llm/gemini/gemini.py (class Gemini).

The embedding is a shallow translation of the Python source:

 * the streaming Delta Merger / Tool-Call Indexer of `response_stream` /
   `generate_stream` (lines 369-495 and 538-668) becomes a fold over a list
   of `ChoiceDelta` fragments; the Python `TypeError`s that string
   concatenation onto `None` would raise are modelled by `Except String`;
 * the batch orchestrator `response` (lines 183-296) becomes a fueled
   recursive function over an explicit `GState`; the model endpoint is an
   oracle `List Message -> Option String -> ModelResp` (the second argument
   is the current `tool_choice`, the only configuration the orchestration
   loop itself mutates);
 * wall-clock durations measured by the Timer (an excluded trivial leaf)
   are abstracted to the constant `0`; only the number of recorded entries
   is ever relevant;
 * the collaborators `get_function_call`, `get_function_call_for_tool_call`,
   `FunctionCall.execute` / `get_call_str` and `LLM.run_function_calls`
   live in phi.utils / phi.tools / phi.llm.base, which are not part of the
   given sources; they are modelled from the spec (sections 4.3, 4.4) and
   marked as such below.
-/

set_option autoImplicit false

/-- Shape of an OpenAI function descriptor fragment: the optional `name` and
`arguments` fields of `ChoiceDeltaFunctionCall` and of the embedded
`function` dict of a tool-call record. -/
structure ToolFn where
  name : Option String
  arguments : Option String
deriving DecidableEq, Repr

/-- One streamed tool-call fragment (`ChoiceDeltaToolCall`): an index, an
optional id, an optional type and an optional function fragment. -/
structure ToolCallDelta where
  index : Nat
  id : Option String
  type : Option String
  function : Option ToolFn
deriving DecidableEq, Repr

/-- One assembled tool-call record, as built by the indexer loop of
`response_stream` (gemini.py lines 428-463): the dict
`{"id": _, "type": _, "function": {"name": _, "arguments": _}}` where the
`function` entry and the strings inside it may be `None`. -/
structure ToolCallRec where
  id : Option String
  type : Option String
  function : Option ToolFn
deriving DecidableEq, Repr

/-- The legacy `function_call` dict handed to `run_function`: `name` and
`arguments` keys, each possibly absent (gemini.py lines 140-142). -/
structure FcDict where
  name : Option String
  arguments : Option String
deriving DecidableEq, Repr

/-- One conversation turn (phi Message, as used by gemini.py). The Python
message-level `metrics` dict is flattened into the four numeric fields the
source ever writes (`time`, `prompt_tokens`, `completion_tokens`,
`total_tokens`); durations are abstracted to `Nat`. -/
structure Message where
  role : String
  content : Option String := none
  name : Option String := none
  function_call : Option FcDict := none
  tool_calls : Option (List ToolCallRec) := none
  tool_call_id : Option String := none
  metricsTime : Option Nat := none
  metricsPrompt : Option Nat := none
  metricsCompletion : Option Nat := none
  metricsTotal : Option Nat := none
deriving DecidableEq, Repr

/-- The run-level metrics accumulator `self.metrics`. Python dict-key
presence is kept as `Option`; `function_call_times` is the association list
of per-function duration lists. -/
structure Metrics where
  response_times : Option (List Nat) := none
  function_call_times : Option (List (String × List Nat)) := none
  prompt_tokens : Option Nat := none
  completion_tokens : Option Nat := none
  total_tokens : Option Nat := none
deriving DecidableEq, Repr

/-- Append a duration under a function name, creating the entry when the
key is absent (gemini.py lines 175-179). -/
def fctAppend : List (String × List Nat) → String → Nat → List (String × List Nat)
  | [], n, t => [(n, [t])]
  | (k, ts) :: rest, n, t =>
      if k == n then (k, ts ++ [t]) :: rest else (k, ts) :: fctAppend rest n t

/-- Total number of duration entries across all function names. -/
def fctTotal (m : Metrics) : Nat :=
  ((m.function_call_times.getD []).map (fun p => p.2.length)).sum

/-- Add a token count to a possibly-absent running total: Python sets the
key when absent and adds otherwise, which is `getD 0` plus the increment. -/
def addTok (o : Option Nat) (t : Nat) : Option Nat :=
  some (o.getD 0 + t)

/-- Modelled from the spec: one callable of the Function Registry (section
4.3, phi.tools.function is not part of the given sources). `decodeErr`
returns the decode-failure text for a raw argument string (`none` when the
arguments decode), and `run` is the captured execution outcome (section 4.4:
execution failures are caught and coerced into the result text, never
propagated). -/
structure RegFunction where
  fname : String
  decodeErr : Option String → Option String
  run : Option String → String

/-- Modelled from the spec: a resolved call as produced by the Function
Resolver (phi.utils.functions.get_function_call is not part of the given
sources). `error` carries the argument-decode failure; `result` is the
captured execution outcome read by `run_function` after `execute()`. -/
structure FunctionCall where
  function : RegFunction
  arguments : Option String
  call_id : Option String
  error : Option String
  result : String

/-- The mutable Gemini/LLM state the orchestration loop reads and writes:
the registry, the call-depth stack, its limit, `tool_choice`, the
`run_tools` / `show_tool_calls` flags and the metrics accumulator. -/
structure GState where
  functions : List RegFunction := []
  function_call_stack : Option (List FunctionCall) := none
  function_call_limit : Nat := 10
  tool_choice : Option String := none
  run_tools : Bool := true
  show_tool_calls : Bool := false
  metrics : Metrics := {}

/-- Modelled from the spec: the Function Resolver (section 4.3). Looks the
name up in the registry and, when found, returns the resolved call with the
decode outcome in `error`; `none` is FunctionNotFound. -/
def get_function_call (n : String) (args : Option String) (fns : List RegFunction) :
    Option FunctionCall :=
  (fns.find? (fun f => f.fname == n)).map
    (fun f => ⟨f, args, none, f.decodeErr args, f.run args⟩)

/-- Modelled from the spec: resolver entry point for one tool-call record
(phi.utils.tools.get_function_call_for_tool_call is not part of the given
sources): reads the embedded function name and raw arguments out of the
record and resolves them, remembering the call id. -/
def get_function_call_for_tool_call (tc : ToolCallRec) (fns : List RegFunction) :
    Option FunctionCall :=
  match tc.function with
  | none => none
  | some f =>
      match f.name with
      | none => none
      | some n => (get_function_call n f.arguments fns).map
          (fun fc => { fc with call_id := tc.id })

/-- Modelled from the spec: human-readable call signature used by the
`show_tool_calls` narration (FunctionCall.get_call_str). -/
def get_call_str (fc : FunctionCall) : String :=
  fc.function.fname ++ "(" ++ fc.arguments.getD "" ++ ")"

/-- Translation of `Gemini.run_function` (gemini.py lines 140-181): resolve
the descriptor, surface resolution failures as result messages, enforce the
call-depth limit (disabling further call requests via `tool_choice`), and
otherwise push the call, execute it and record its duration. Returns the
result message, the resolved call and the updated state. -/
def run_function (st : GState) (d : FcDict) : Message × Option FunctionCall × GState :=
  match d.name with
  | none => ({ role := "function", content := some "Function name is None." }, none, st)
  | some n =>
      match get_function_call n d.arguments st.functions with
      | none =>
          ({ role := "function", content := some "Could not find function to call." }, none, st)
      | some fc =>
          match fc.error with
          | some e => ({ role := "function", content := some e }, some fc, st)
          | none =>
              let stack := st.function_call_stack.getD []
              if stack.length > st.function_call_limit then
                ({ role := "function",
                   content := some ("Function call limit (" ++
                     toString st.function_call_limit ++ ") exceeded.") },
                 some fc,
                 { st with function_call_stack := some stack, tool_choice := some "none" })
              else
                ({ role := "function", name := some fc.function.fname,
                   content := some fc.result, metricsTime := some 0 },
                 some fc,
                 { st with
                     function_call_stack := some (stack ++ [fc]),
                     metrics := { st.metrics with
                       function_call_times :=
                         some (fctAppend (st.metrics.function_call_times.getD [])
                           fc.function.fname 0) } })

/-- Translation of the resolution loop of the tool-calls path (gemini.py
lines 263-275): each entry that fails to resolve yields an immediate
role-"tool" error message carrying the entry's id; the rest are collected
for execution in order. -/
def resolveToolCalls (fns : List RegFunction) : List ToolCallRec → List Message × List FunctionCall
  | [] => ([], [])
  | tc :: rest =>
      let r := resolveToolCalls fns rest
      match get_function_call_for_tool_call tc fns with
      | none =>
          ({ role := "tool", tool_call_id := tc.id,
             content := some "Could not find function to call." } :: r.1, r.2)
      | some fc =>
          match fc.error with
          | some e =>
              ({ role := "tool", tool_call_id := tc.id, content := some e } :: r.1, r.2)
          | none => (r.1, fc :: r.2)

/-- Modelled from the spec: `LLM.run_function_calls` (phi.llm.base is not
part of the given sources). Section 4.4 and the section 8 example: each
resolved call is executed sequentially through the Call Executor contract
(depth-limit check, push, timed execution, per-function metrics), and its
result becomes a role-"tool" message linked by `tool_call_id`. -/
def run_function_calls (st : GState) : List FunctionCall → List Message × GState
  | [] => ([], st)
  | fc :: rest =>
      let stack := st.function_call_stack.getD []
      if stack.length > st.function_call_limit then
        let st1 : GState :=
          { st with function_call_stack := some stack, tool_choice := some "none" }
        let r := run_function_calls st1 rest
        ({ role := "tool", tool_call_id := fc.call_id,
           content := some ("Function call limit (" ++
             toString st.function_call_limit ++ ") exceeded.") } :: r.1, r.2)
      else
        let st1 : GState :=
          { st with
              function_call_stack := some (stack ++ [fc]),
              metrics := { st.metrics with
                function_call_times :=
                  some (fctAppend (st.metrics.function_call_times.getD [])
                    fc.function.fname 0) } }
        let r := run_function_calls st1 rest
        ({ role := "tool", name := some fc.function.fname, tool_call_id := fc.call_id,
           content := some fc.result, metricsTime := some 0 } :: r.1, r.2)

/-- One batch model answer as exposed by the Model Endpoint Client
(`ChatCompletion`, one choice): optional role and content, the optional
legacy function-call dict, the optional complete tool-call records, and the
optional usage counts (prompt, completion, total). -/
structure ModelResp where
  role : Option String := none
  content : Option String := none
  function_call : Option FcDict := none
  tool_calls : Option (List ToolCallRec) := none
  usage : Option (Nat × Nat × Nat) := none
deriving DecidableEq, Repr

/-- The model endpoint oracle: a batch answer as a function of the message
history and the current `tool_choice` (the only request parameter the
orchestration loop itself changes, gemini.py line 158). -/
abbrev Oracle := List Message → Option String → ModelResp

/-- Round bookkeeping of `response` (gemini.py lines 215-243): append the
round duration to `response_times` and fold the usage counts into the
running totals when the endpoint reported them. -/
def recordRound (m : Metrics) (usage : Option (Nat × Nat × Nat)) : Metrics :=
  let m1 : Metrics := { m with response_times := some (m.response_times.getD [] ++ [0]) }
  match usage with
  | none => m1
  | some (p, c, t) =>
      { m1 with
          prompt_tokens := addTok m1.prompt_tokens p,
          completion_tokens := addTok m1.completion_tokens c,
          total_tokens := addTok m1.total_tokens t }

/-- State after the round bookkeeping of one batch model round. -/
def withRound (st : GState) (r : ModelResp) : GState :=
  { st with metrics := recordRound st.metrics r.usage }

/-- The assistant draft built from one batch model answer (gemini.py lines
205-243): role defaults to "assistant", content / function_call /
tool_calls are copied when present, and the round duration plus reported
usage counts become message metrics. -/
def mkAssistant (r : ModelResp) : Message :=
  { role := r.role.getD "assistant", content := r.content,
    function_call := r.function_call, tool_calls := r.tool_calls,
    metricsTime := some 0,
    metricsPrompt := r.usage.map (fun u => u.1),
    metricsCompletion := r.usage.map (fun u => u.2.1),
    metricsTotal := r.usage.map (fun u => u.2.2) }

/-- Narration line for a single resolved call (gemini.py line 258). -/
def narrateOne (fc : FunctionCall) : String :=
  "\n - Running: " ++ get_call_str fc ++ "\n\n"

/-- Narration block for the tool-calls path (gemini.py lines 277-284). -/
def narrateMany : List FunctionCall → String
  | [] => ""
  | [fc] => narrateOne fc
  | fcs => "\nRunning:" ++
      ((fcs.map (fun fc => "\n - " ++ get_call_str fc)).foldr (fun a b => a ++ b) "") ++ "\n\n"

/-- Result triple of one orchestration run: the textual output, the final
state and the final message history. -/
abbrev RunOut := String × GState × List Message

/-- One round of `Gemini.response` (gemini.py lines 183-296) with the
recursive self-invocation abstracted as `recur`: invoke the oracle, build
and append the assistant draft, record round metrics, then branch exactly
as the source does on the legacy function-call, the tool-calls list, or
neither (terminal: the content string, or the literal fallback). -/
def responseRound (oracle : Oracle) (recur : GState → List Message → Option RunOut)
    (st : GState) (messages : List Message) : Option RunOut :=
  let r := oracle messages st.tool_choice
  let am := mkAssistant r
  let st1 := withRound st r
  let msgs1 := messages ++ [am]
  if (am.function_call.isSome || am.tool_calls.isSome) && st1.run_tools then
    match am.function_call, am.tool_calls with
    | some fcd, _ =>
        let t := run_function st1 fcd
        let pre := match t.2.1 with
          | some fc => if st1.show_tool_calls then narrateOne fc else ""
          | none => ""
        (recur t.2.2 (msgs1 ++ [t.1])).map (fun q => (pre ++ q.1, q.2))
    | none, some tcs =>
        let rl := resolveToolCalls st1.functions tcs
        let pre := if st1.show_tool_calls then narrateMany rl.2 else ""
        let ex := run_function_calls st1 rl.2
        (recur ex.2 ((msgs1 ++ rl.1) ++ ex.1)).map (fun q => (pre ++ q.1, q.2))
    | none, none =>
        some (match am.content with
          | some c => c
          | none => "Something went wrong, please try again.", st1, msgs1)
  else
    some (match am.content with
      | some c => c
      | none => "Something went wrong, please try again.", st1, msgs1)

/-- Fueled translation of the recursive `Gemini.response`: `fuel` bounds the
number of model rounds; `none` means the run needs more rounds than `fuel`
(in particular, a run that would recurse forever is `none` at every fuel). -/
def response (oracle : Oracle) : Nat → GState → List Message → Option RunOut
  | 0, _, _ => none
  | fuel + 1, st, messages => responseRound oracle (response oracle fuel) st messages

/-- One streamed fragment delta (`ChoiceDelta`): an optional content piece,
an optional function-call fragment and an optional list of indexed
tool-call fragments. -/
structure ChoiceDelta where
  content : Option String := none
  function_call : Option ToolFn := none
  tool_calls : Option (List ToolCallDelta) := none
deriving DecidableEq, Repr

/-- Function-name piece carried by a tool-call fragment
(`_tool_call_function_name`, gemini.py line 433). -/
def deltaName (d : ToolCallDelta) : Option String :=
  d.function.bind (fun f => f.name)

/-- Function-arguments piece carried by a tool-call fragment
(`_tool_call_function_arguments_str`, gemini.py lines 434-436). -/
def deltaArgs (d : ToolCallDelta) : Option String :=
  d.function.bind (fun f => f.arguments)

/-- Record created for the first fragment at an index (gemini.py lines
440-452): id and type are taken as-is, and the function dict is created
only when the fragment carries a name or an arguments piece. -/
def createRec (d : ToolCallDelta) : ToolCallRec :=
  { id := d.id, type := d.type,
    function :=
      if (deltaName d).isSome || (deltaArgs d).isSome then
        some ⟨deltaName d, deltaArgs d⟩
      else none }

/-- Merge of a later fragment into the existing record at its index
(gemini.py lines 454-462): name and arguments are string-concatenated, id
and type overwritten only when supplied. A fragment piece that meets an
absent function dict or an absent string reproduces the Python `TypeError`
as an `Except.error`. -/
def mergeInto (r : ToolCallRec) (d : ToolCallDelta) : Except String ToolCallRec :=
  let afterName : Except String ToolCallRec :=
    match deltaName d with
    | none => .ok r
    | some np =>
        match r.function with
        | none => .error "TypeError: tool call function is None"
        | some f =>
            match f.name with
            | none => .error "TypeError: tool call function name is None"
            | some s => .ok { r with function := some { f with name := some (s ++ np) } }
  match afterName with
  | .error e => .error e
  | .ok r1 =>
      let afterArgs : Except String ToolCallRec :=
        match deltaArgs d with
        | none => .ok r1
        | some ap =>
            match r1.function with
            | none => .error "TypeError: tool call function is None"
            | some f =>
                match f.arguments with
                | none => .error "TypeError: tool call function arguments is None"
                | some s => .ok { r1 with function := some { f with arguments := some (s ++ ap) } }
      match afterArgs with
      | .error e => .error e
      | .ok r2 =>
          let r3 := match d.id with
            | none => r2
            | some i => { r2 with id := some i }
          .ok (match d.type with
            | none => r3
            | some ty => { r3 with type := some ty })

/-- Python `list.insert`: insert at the index, clamped to the length (an
index past the end appends). -/
def pyInsert {α : Type} (l : List α) (i : Nat) (a : α) : List α :=
  l.take i ++ a :: l.drop i

/-- The Tool-Call Indexer loop (gemini.py lines 428-462): fold the
accumulated tool-call fragments into the index-addressed record list,
creating at an unseen index and merging otherwise. -/
def buildAux : List ToolCallRec → List ToolCallDelta → Except String (List ToolCallRec)
  | recs, [] => .ok recs
  | recs, d :: ds =>
      match recs[d.index]? with
      | none => buildAux (pyInsert recs d.index (createRec d)) ds
      | some r =>
          match mergeInto r d with
          | .error e => .error e
          | .ok r1 => buildAux (recs.set d.index r1) ds

/-- Build the final tool-call records from all accumulated fragments. -/
def buildToolCalls (ds : List ToolCallDelta) : Except String (List ToolCallRec) :=
  buildAux [] ds

/-- Accumulating draft of the Delta Merger (gemini.py lines 375-378): the
content, function-name and function-arguments buffers plus the accumulated
tool-call fragments (`None` until a fragment carries a tool-calls field). -/
structure StreamAcc where
  content : String := ""
  fnName : String := ""
  fnArgs : String := ""
  toolDeltas : Option (List ToolCallDelta) := none
deriving DecidableEq, Repr

/-- One merge step of the Delta Merger (gemini.py lines 385-409): append a
present content piece, append present function name/arguments pieces, and
extend the accumulated tool-call fragment list. -/
def stepDelta (s : StreamAcc) (d : ChoiceDelta) : StreamAcc :=
  let s1 := match d.content with
    | none => s
    | some c => { s with content := s.content ++ c }
  let s2 := match d.function_call with
    | none => s1
    | some f =>
        let s2a := match f.name with
          | none => s1
          | some n => { s1 with fnName := s1.fnName ++ n }
        match f.arguments with
        | none => s2a
        | some a => { s2a with fnArgs := s2a.fnArgs ++ a }
  match d.tool_calls with
  | none => s2
  | some l => { s2 with toolDeltas := some (s2.toolDeltas.getD [] ++ l) }

/-- Fold of the Delta Merger over an ordered fragment stream. -/
def foldDeltas (s : StreamAcc) : List ChoiceDelta → StreamAcc
  | [] => s
  | d :: ds => foldDeltas (stepDelta s d) ds

/-- Finalization of the assembled assistant message (gemini.py lines
414-424 and 589-596): content only when the buffer is non-empty,
function-call only when the name buffer is non-empty. -/
def mkStreamMsg (s : StreamAcc) (tcs : Option (List ToolCallRec)) : Message :=
  { role := "assistant",
    content := if s.content == "" then none else some s.content,
    function_call := if s.fnName == "" then none
      else some ⟨some s.fnName, some s.fnArgs⟩,
    tool_calls := tcs }

/-- Finalize a merger draft: when any fragment carried a tool-calls field,
run the indexer over the accumulated fragments (gemini.py lines 426-463). -/
def finalizeMessage (s : StreamAcc) : Except String Message :=
  match s.toolDeltas with
  | none => .ok (mkStreamMsg s none)
  | some ds => (buildToolCalls ds).map (fun recs => mkStreamMsg s (some recs))

/-- The Delta Merger contract: a finite ordered fragment stream to one
assembled message (or the Python `TypeError` of a bad tool-call merge). -/
def assembleMessage (ds : List ChoiceDelta) : Except String Message :=
  finalizeMessage (foldDeltas {} ds)

/-- One wire chunk of the streaming transport: the delta plus whatever
usage counts the transport reports (`ChatCompletionChunk.usage`, which the
source never reads). -/
structure StreamChunk where
  delta : ChoiceDelta
  usage : Option (Nat × Nat × Nat) := none
deriving DecidableEq, Repr

/-- One streaming model round of `response_stream` up to the history append
(gemini.py lines 375-491): assemble the message from the deltas, then
record round metrics; `completion_tokens` is the number of chunks pulled
(one increment per chunk, line 383), `prompt_tokens` is the literal 0 of
line 474, and `total_tokens` their sum, independent of chunk usage. -/
def streamRound (st : GState) (chunks : List StreamChunk) :
    Except String (Message × GState) :=
  match assembleMessage (chunks.map (fun ch => ch.delta)) with
  | .error e => .error e
  | .ok m =>
      let completion := chunks.length
      let prompt := 0
      let total := prompt + completion
      let m1 := { m with
        metricsTime := some 0,
        metricsPrompt := some prompt,
        metricsCompletion := some completion,
        metricsTotal := some total }
      let st1 := { st with metrics :=
        { st.metrics with
            response_times := some (st.metrics.response_times.getD [] ++ [0]),
            prompt_tokens := addTok st.metrics.prompt_tokens prompt,
            completion_tokens := addTok st.metrics.completion_tokens completion,
            total_tokens := addTok st.metrics.total_tokens total } }
      .ok (m1, st1)

/-- Concatenation of an ordered list of string pieces. -/
def strJoin : List String → String
  | [] => ""
  | s :: r => s ++ strJoin r

/-- Tool-call fragment carrying full name/arguments pieces at an index and
nothing else, used to describe interleaved piece streams. -/
def idxDelta (i : Nat) (n a : String) : ToolCallDelta :=
  ⟨i, none, none, some ⟨some n, some a⟩⟩

/-- Record holding a complete function descriptor and no id/type. -/
def plainRec (n a : String) : ToolCallRec :=
  ⟨none, none, some ⟨some n, some a⟩⟩

/-- Encode an interleaved piece stream for two tool-call indices: tag
`false` is index 0, tag `true` is index 1; each entry carries one name
piece and one arguments piece. -/
def encodeInterleave (l : List (Bool × String × String)) : List ToolCallDelta :=
  l.map (fun p => idxDelta (if p.1 then 1 else 0) p.2.1 p.2.2)

/-- Concatenation, in arrival order, of the name pieces carried by the
entries with the given tag. -/
def sideNames (b : Bool) : List (Bool × String × String) → String
  | [] => ""
  | p :: r => (if p.1 == b then p.2.1 else "") ++ sideNames b r

/-- Concatenation, in arrival order, of the arguments pieces carried by the
entries with the given tag. -/
def sideArgs (b : Bool) : List (Bool × String × String) → String
  | [] => ""
  | p :: r => (if p.1 == b then p.2.2 else "") ++ sideArgs b r

/-- Description of one complete tool call of a finished message, together
with a chosen splitting of its arguments string into ordered pieces. -/
structure ToolSpec where
  id : String
  fname : String
  fargs : String
  pieces : List String
deriving DecidableEq, Repr

/-- The finished record a complete tool call assembles to. -/
def fullRec (t : ToolSpec) : ToolCallRec :=
  ⟨some t.id, some "function", some ⟨some t.fname, some t.fargs⟩⟩

/-- Tool-call fragments of the whole-message-as-one-fragment encoding: one
complete fragment per call, indices assigned in order from `k`. -/
def singleDeltas (k : Nat) : List ToolSpec → List ToolCallDelta
  | [] => []
  | t :: ts => ⟨k, some t.id, some "function", some ⟨some t.fname, some t.fargs⟩⟩ ::
      singleDeltas (k + 1) ts

/-- Opening fragment of a split tool call: id, type, the full name and the
first arguments piece. -/
def openDelta (k : Nat) (t : ToolSpec) : ToolCallDelta :=
  ⟨k, some t.id, some "function", some ⟨some t.fname, some (t.pieces.headD "")⟩⟩

/-- Continuation fragments of a split tool call: bare arguments pieces. -/
def contDeltas (k : Nat) (ps : List String) : List ToolCallDelta :=
  ps.map (fun p => ⟨k, none, none, some ⟨none, some p⟩⟩)

/-- Tool-call fragments of the split encoding: for each call, its opening
fragment followed by one continuation fragment per remaining piece. -/
def splitDeltas (k : Nat) : List ToolSpec → List ToolCallDelta
  | [] => []
  | t :: ts => (openDelta k t :: contDeltas k t.pieces.tail) ++ splitDeltas (k + 1) ts

/-- Fragment carrying only a content piece. -/
def contentFrag (c : String) : ChoiceDelta := { content := some c }

/-- Fragment carrying only a function-name piece. -/
def nameFrag (n : String) : ChoiceDelta := { function_call := some ⟨some n, none⟩ }

/-- Fragment carrying only a function-arguments piece. -/
def argFrag (a : String) : ChoiceDelta := { function_call := some ⟨none, some a⟩ }

/-- Fragment carrying exactly one tool-call fragment. -/
def toolFrag (d : ToolCallDelta) : ChoiceDelta := { tool_calls := some [d] }

/-- The split encoding of a complete message: its content, function-name,
function-arguments and per-tool-call arguments strings cut into ordered
pieces, each piece fed as its own fragment. -/
def splitStream (cs ns args2 : List String) (ts : List ToolSpec) : List ChoiceDelta :=
  cs.map contentFrag ++ ns.map nameFrag ++ args2.map argFrag ++
    (splitDeltas 0 ts).map toolFrag

/-- The whole message fed as a single fragment. -/
def wholeFrag (c fn fa : String) (ts : List ToolSpec) : ChoiceDelta :=
  { content := some c, function_call := some ⟨some fn, some fa⟩,
    tool_calls := match ts with
      | [] => none
      | _ => some (singleDeltas 0 ts) }

/-- Concatenation of all content pieces of a fragment stream. -/
def totC : List ChoiceDelta → String
  | [] => ""
  | d :: ds => d.content.getD "" ++ totC ds

/-- Concatenation of all function-name pieces of a fragment stream. -/
def totN : List ChoiceDelta → String
  | [] => ""
  | d :: ds => ((d.function_call.bind (fun f => f.name)).getD "") ++ totN ds

/-- Concatenation of all function-arguments pieces of a fragment stream. -/
def totA : List ChoiceDelta → String
  | [] => ""
  | d :: ds => ((d.function_call.bind (fun f => f.arguments)).getD "") ++ totA ds

/-- Concatenation of all tool-call fragments of a fragment stream. -/
def totT : List ChoiceDelta → List ToolCallDelta
  | [] => []
  | d :: ds => d.tool_calls.getD [] ++ totT ds

/-- Whether any fragment carried a tool-calls field (possibly empty). -/
def anyTool (ds : List ChoiceDelta) : Bool :=
  ds.any (fun d => d.tool_calls.isSome)

/-- Number of assistant messages in a history segment: one per model round
appended by the orchestrator. -/
def countAssistant (ms : List Message) : Nat :=
  ms.countP (fun m => m.role == "assistant")

/-- Number of executed-call result messages in a history segment: result
messages of actual executions carry the function name, while resolution
failures and limit refusals do not. -/
def countExec (ms : List Message) : Nat :=
  ms.countP (fun m => m.name.isSome && (m.role == "function" || m.role == "tool"))

/-- Abstraction of a record for the merge-totality argument: whether a
function dict with a string name, and one with a string arguments field,
is present. A record with an absent function dict and one whose dict holds
two `None` strings behave identically under `mergeInto`. -/
def recShape (r : ToolCallRec) : Bool × Bool :=
  match r.function with
  | none => (false, false)
  | some f => (f.name.isSome, f.arguments.isSome)

/-- Decidable well-formedness of a tool-call fragment stream: replaying the
indexer at the level of shapes, it demands that a first fragment arrives at
the next unused index and carries a name or arguments piece, and that a
later fragment never carries a piece whose string the first fragment at
that index did not create. -/
def streamOk : List (Bool × Bool) → List ToolCallDelta → Bool
  | _, [] => true
  | shapes, d :: ds =>
      match shapes[d.index]? with
      | none =>
          (d.index == shapes.length) &&
          ((deltaName d).isSome || (deltaArgs d).isSome) &&
          streamOk (shapes ++ [((deltaName d).isSome, (deltaArgs d).isSome)]) ds
      | some p =>
          (!(deltaName d).isSome || p.1) && (!(deltaArgs d).isSome || p.2) &&
          streamOk shapes ds

/-- Registry entry for the depth-limit scenarios: a function that always
resolves and executes successfully. -/
def fReg : RegFunction := ⟨"f", fun _ => none, fun _ => "ok"⟩

/-- Model answer that requests the registered function again. -/
def selfCallResp : ModelResp := { function_call := some ⟨some "f", some "x"⟩ }

/-- Model that requests a call of the registered function on every round
until call requests are disabled, then answers with plain content. -/
def advOracle : Oracle := fun _ tc =>
  if tc == some "none" then { content := some "done" } else selfCallResp

/-- Model that requests a call of the registered function on every round,
ignoring the disabled `tool_choice`. -/
def alwaysCallOracle : Oracle := fun _ _ => selfCallResp

/-- Initial state of a depth-limit run: the one-function registry, an empty
stack and call-depth limit `n`. -/
def limitSt (n : Nat) : GState :=
  { functions := [fReg], function_call_limit := n }

/-- The limit-exceeded result message of the legacy path (gemini.py lines
159-161). -/
def limitFnMsg (n : Nat) : Message :=
  { role := "function",
    content := some ("Function call limit (" ++ toString n ++ ") exceeded.") }

/-- Inserting at the current length is appending, as Python `list.insert`
clamps the index. -/
theorem pyInsert_length_eq_append {α : Type} (l : List α) (a : α) :
    pyInsert l l.length a = l ++ [a] := by
  simp [pyInsert]

/-- The indexer never shrinks the record list. -/
theorem buildAux_length_le (ds : List ToolCallDelta) :
    ∀ (recs out : List ToolCallRec), buildAux recs ds = .ok out →
      recs.length ≤ out.length := by
  induction ds with
  | nil => intro recs out h; cases h; exact Nat.le_refl _
  | cons d ds ih =>
      intro recs out h
      unfold buildAux at h
      split at h
      · have h1 := ih _ _ h
        have h2 : recs.length ≤ (pyInsert recs d.index (createRec d)).length := by
          simp [pyInsert]
          omega
        exact Nat.le_trans h2 h1
      · split at h
        · cases h
        · have h1 := ih _ _ h
          simpa using h1

/-- Claim C4: `run_function` on a resolvable descriptor refuses execution
when the stack length exceeds the configured limit, returning the
limit-exceeded message and disabling further call requests via
`tool_choice := "none"`; otherwise it appends the call to the stack,
executes it and records the duration. -/
theorem c4_call_limit (st : GState) (d : FcDict) (n : String) (fc : FunctionCall)
    (hn : d.name = some n)
    (hres : get_function_call n d.arguments st.functions = some fc)
    (herr : fc.error = none) :
    ((st.function_call_stack.getD []).length > st.function_call_limit →
      run_function st d =
        ({ role := "function",
           content := some ("Function call limit (" ++
             toString st.function_call_limit ++ ") exceeded.") },
         some fc,
         { st with function_call_stack := some (st.function_call_stack.getD []),
                   tool_choice := some "none" })) ∧
    (¬ (st.function_call_stack.getD []).length > st.function_call_limit →
      run_function st d =
        ({ role := "function", name := some fc.function.fname,
           content := some fc.result, metricsTime := some 0 },
         some fc,
         { st with
             function_call_stack := some (st.function_call_stack.getD [] ++ [fc]),
             metrics := { st.metrics with
               function_call_times :=
                 some (fctAppend (st.metrics.function_call_times.getD [])
                   fc.function.fname 0) } })) := by
  constructor <;> intro h <;> simp [run_function, hn, hres, herr, h]

/-- Witness for C4: a concrete state whose stack already exceeds the limit
takes the refusal branch of `c4_call_limit`. -/
theorem c4_call_limit_witness :
    run_function
      { functions := [fReg],
        function_call_stack := some [⟨fReg, some "x", none, none, "ok"⟩],
        function_call_limit := 0 }
      ⟨some "f", some "x"⟩ =
    ({ role := "function",
       content := some ("Function call limit (" ++ toString 0 ++ ") exceeded.") },
     some ⟨fReg, some "x", none, none, "ok"⟩,
     { functions := [fReg],
       function_call_stack := some [⟨fReg, some "x", none, none, "ok"⟩],
       function_call_limit := 0,
       tool_choice := some "none" }) := by
  have h := c4_call_limit
    { functions := [fReg],
      function_call_stack := some [⟨fReg, some "x", none, none, "ok"⟩],
      function_call_limit := 0 }
    ⟨some "f", some "x"⟩ "f" ⟨fReg, some "x", none, none, "ok"⟩ rfl (by rfl) rfl
  exact h.1 (by simp)

/-- Claim C8: when the model answer carries neither a legacy function-call
nor tool-calls, the orchestrator is terminal: it returns the assistant
content, or the literal fallback string when content is absent. -/
theorem c8_terminal_content (oracle : Oracle) (fuel : Nat) (st : GState)
    (msgs : List Message)
    (hfc : (oracle msgs st.tool_choice).function_call = none)
    (htc : (oracle msgs st.tool_choice).tool_calls = none) :
    response oracle (fuel + 1) st msgs =
      some ((oracle msgs st.tool_choice).content.getD
              "Something went wrong, please try again.",
            withRound st (oracle msgs st.tool_choice),
            msgs ++ [mkAssistant (oracle msgs st.tool_choice)]) := by
  cases hc : (oracle msgs st.tool_choice).content <;>
    simp [response, responseRound, mkAssistant, hfc, htc, hc]

/-- Witness for C8: a content-only model answer terminates in one round
with that content, and an empty model answer yields the fallback text. -/
theorem c8_terminal_content_witness :
    response (fun _ _ => { content := some "hi" }) 1 {} [] =
      some ("hi", withRound {} { content := some "hi" },
            [mkAssistant { content := some "hi" }]) ∧
    response (fun _ _ => ({} : ModelResp)) 1 {} [] =
      some ("Something went wrong, please try again.", withRound {} {},
            [mkAssistant {}]) :=
  ⟨c8_terminal_content (fun _ _ => { content := some "hi" }) 0 {} [] rfl rfl,
   c8_terminal_content (fun _ _ => ({} : ModelResp)) 0 {} [] rfl rfl⟩

/-- Claim C10: in a streaming round the recorded `completion_tokens` is the
number of chunks pulled from the stream, `prompt_tokens` is 0 and
`total_tokens` is the chunk count, both on the assembled message and in the
run accumulator, whatever usage counts the chunks report. -/
theorem c10_stream_token_metrics (chunks : List StreamChunk) (st : GState)
    (m : Message) (st' : GState)
    (h : streamRound st chunks = .ok (m, st')) :
    m.metricsCompletion = some chunks.length ∧
    m.metricsPrompt = some 0 ∧
    m.metricsTotal = some chunks.length ∧
    st'.metrics.completion_tokens =
      some (st.metrics.completion_tokens.getD 0 + chunks.length) ∧
    st'.metrics.prompt_tokens = some (st.metrics.prompt_tokens.getD 0) ∧
    st'.metrics.total_tokens =
      some (st.metrics.total_tokens.getD 0 + chunks.length) := by
  unfold streamRound at h
  cases ha : assembleMessage (chunks.map (fun ch => ch.delta)) with
  | error e => rw [ha] at h; cases h
  | ok m0 =>
      rw [ha] at h
      have hm : m = { m0 with
          metricsTime := some 0, metricsPrompt := some 0,
          metricsCompletion := some chunks.length,
          metricsTotal := some (0 + chunks.length) } := by
        cases h; rfl
      have hs : st' = { st with metrics :=
          { st.metrics with
              response_times := some (st.metrics.response_times.getD [] ++ [0]),
              prompt_tokens := addTok st.metrics.prompt_tokens 0,
              completion_tokens := addTok st.metrics.completion_tokens chunks.length,
              total_tokens := addTok st.metrics.total_tokens (0 + chunks.length) } } := by
        cases h; rfl
      subst hm; subst hs
      simp [addTok]

/-- Witness for C10: one chunk whose transport-reported usage counts are
(5, 7, 12) still yields completion_tokens 1, prompt_tokens 0 and
total_tokens 1. -/
theorem c10_stream_token_metrics_witness :
    ∃ m st', streamRound {} [⟨⟨some "a", none, none⟩, some (5, 7, 12)⟩] = .ok (m, st') ∧
      m.metricsCompletion = some 1 ∧ m.metricsPrompt = some 0 ∧
      st'.metrics.completion_tokens = some 1 ∧ st'.metrics.total_tokens = some 1 :=
  ⟨_, _, rfl,
    (c10_stream_token_metrics [⟨⟨some "a", none, none⟩, some (5, 7, 12)⟩] {} _ _ rfl).1,
    (c10_stream_token_metrics [⟨⟨some "a", none, none⟩, some (5, 7, 12)⟩] {} _ _ rfl).2.1,
    (c10_stream_token_metrics [⟨⟨some "a", none, none⟩, some (5, 7, 12)⟩] {} _ _ rfl).2.2.2.1,
    (c10_stream_token_metrics [⟨⟨some "a", none, none⟩, some (5, 7, 12)⟩] {} _ _ rfl).2.2.2.2.2⟩

/-- Effect of one merge step on the content buffer. -/
theorem stepDelta_content (s : StreamAcc) (d : ChoiceDelta) :
    (stepDelta s d).content = s.content ++ d.content.getD "" := by
  rcases d with ⟨c, _ | ⟨_ | fn, _ | fa⟩, t⟩ <;> cases c <;> cases t <;> simp [stepDelta]

/-- Effect of one merge step on the function-name buffer. -/
theorem stepDelta_fnName (s : StreamAcc) (d : ChoiceDelta) :
    (stepDelta s d).fnName =
      s.fnName ++ ((d.function_call.bind (fun f => f.name)).getD "") := by
  rcases d with ⟨c, _ | ⟨_ | fn, _ | fa⟩, t⟩ <;> cases c <;> cases t <;> simp [stepDelta]

/-- Effect of one merge step on the function-arguments buffer. -/
theorem stepDelta_fnArgs (s : StreamAcc) (d : ChoiceDelta) :
    (stepDelta s d).fnArgs =
      s.fnArgs ++ ((d.function_call.bind (fun f => f.arguments)).getD "") := by
  rcases d with ⟨c, _ | ⟨_ | fn, _ | fa⟩, t⟩ <;> cases c <;> cases t <;> simp [stepDelta]

/-- Effect of one merge step on the accumulated tool-call fragments. -/
theorem stepDelta_tool (s : StreamAcc) (d : ChoiceDelta) :
    (stepDelta s d).toolDeltas =
      (match d.tool_calls with
        | none => s.toolDeltas
        | some l => some (s.toolDeltas.getD [] ++ l)) := by
  rcases d with ⟨c, _ | ⟨_ | fn, _ | fa⟩, t⟩ <;> cases c <;> cases t <;> simp [stepDelta]

/-- A stream in which no fragment carries a tool-calls field accumulates no
tool-call fragments. -/
theorem anyTool_false_totT (ds : List ChoiceDelta) (h : anyTool ds = false) :
    totT ds = [] := by
  induction ds with
  | nil => rfl
  | cons d rest ih =>
      cases hd : d.tool_calls with
      | some l =>
          exfalso
          rw [anyTool, List.any_cons, hd] at h
          simp at h
      | none =>
          rw [anyTool, List.any_cons, hd] at h
          simp only [Option.isSome_none, Bool.false_or] at h
          have h2 : anyTool rest = false := h
          rw [totT, hd]
          simp [ih h2]

/-- The final content buffer is the concatenation of all content pieces. -/
theorem foldDeltas_content (ds : List ChoiceDelta) :
    ∀ s : StreamAcc, (foldDeltas s ds).content = s.content ++ totC ds := by
  induction ds with
  | nil => intro s; simp [foldDeltas, totC]
  | cons d rest ih =>
      intro s
      simp [foldDeltas, ih, stepDelta_content, totC, String.append_assoc]

/-- The final name buffer is the concatenation of all name pieces. -/
theorem foldDeltas_fnName (ds : List ChoiceDelta) :
    ∀ s : StreamAcc, (foldDeltas s ds).fnName = s.fnName ++ totN ds := by
  induction ds with
  | nil => intro s; simp [foldDeltas, totN]
  | cons d rest ih =>
      intro s
      simp [foldDeltas, ih, stepDelta_fnName, totN, String.append_assoc]

/-- The final arguments buffer is the concatenation of all argument pieces. -/
theorem foldDeltas_fnArgs (ds : List ChoiceDelta) :
    ∀ s : StreamAcc, (foldDeltas s ds).fnArgs = s.fnArgs ++ totA ds := by
  induction ds with
  | nil => intro s; simp [foldDeltas, totA]
  | cons d rest ih =>
      intro s
      simp [foldDeltas, ih, stepDelta_fnArgs, totA, String.append_assoc]

/-- The accumulated tool-call fragment list is the concatenation of all
tool-call fragments, present exactly when some fragment carried the field. -/
theorem foldDeltas_tool (ds : List ChoiceDelta) :
    ∀ s : StreamAcc, (foldDeltas s ds).toolDeltas =
      (if anyTool ds then some (s.toolDeltas.getD [] ++ totT ds) else s.toolDeltas) := by
  induction ds with
  | nil => intro s; simp [foldDeltas, anyTool, totT]
  | cons d rest ih =>
      intro s
      rw [foldDeltas, ih, stepDelta_tool]
      cases ht : d.tool_calls with
      | none =>
          have ha : anyTool (d :: rest) = anyTool rest := by simp [anyTool, ht]
          rw [ha]
          cases har : anyTool rest <;> simp [totT, ht, har]
      | some l =>
          have ha : anyTool (d :: rest) = true := by simp [anyTool, ht]
          rw [ha]
          cases har : anyTool rest with
          | true => simp [totT, ht, har, List.append_assoc]
          | false =>
              have h0 : totT rest = [] := anyTool_false_totT rest har
              simp [totT, ht, har, h0]

/-- Indexer step at an unseen index: create and insert a fresh record. -/
theorem buildAux_cons_none (recs : List ToolCallRec) (d : ToolCallDelta)
    (ds : List ToolCallDelta) (h : recs[d.index]? = none) :
    buildAux recs (d :: ds) = buildAux (pyInsert recs d.index (createRec d)) ds := by
  simp [buildAux, h]

/-- Indexer step at an existing index with a successful merge. -/
theorem buildAux_cons_merge (recs : List ToolCallRec) (d : ToolCallDelta)
    (ds : List ToolCallDelta) (r r1 : ToolCallRec)
    (h : recs[d.index]? = some r) (hm : mergeInto r d = .ok r1) :
    buildAux recs (d :: ds) = buildAux (recs.set d.index r1) ds := by
  simp [buildAux, h, hm]

/-- Indexer step at an existing index with a failing merge. -/
theorem buildAux_cons_merge_err (recs : List ToolCallRec) (d : ToolCallDelta)
    (ds : List ToolCallDelta) (r : ToolCallRec) (e : String)
    (h : recs[d.index]? = some r) (hm : mergeInto r d = .error e) :
    buildAux recs (d :: ds) = .error e := by
  simp [buildAux, h, hm]

/-- Finalization when no fragment carried a tool-calls field. -/
theorem finalizeMessage_eq_none (s : StreamAcc) (h : s.toolDeltas = none) :
    finalizeMessage s = .ok (mkStreamMsg s none) := by
  unfold finalizeMessage
  rw [h]

/-- Finalization when the accumulated tool-call fragments are present. -/
theorem finalizeMessage_eq_some (s : StreamAcc) (tds : List ToolCallDelta)
    (h : s.toolDeltas = some tds) :
    finalizeMessage s = (buildToolCalls tds).map (fun recs => mkStreamMsg s (some recs)) := by
  unfold finalizeMessage
  rw [h]

/-- Counterexample to claim C3: a fragment carrying a present but empty
tool-calls list makes the merger set `tool_calls` on the assembled message
(to the empty record list) even though the indexer produced no record. -/
theorem c3_counterexample :
    assembleMessage [{ tool_calls := some [] }] =
      .ok { role := "assistant", tool_calls := some [] } ∧
    (({ role := "assistant", tool_calls := some [] } : Message).tool_calls).isSome = true ∧
    (([] : List ToolCallRec)).length = 0 :=
  ⟨rfl, rfl, rfl⟩

/-- Claim C3 as amended: content is set exactly when the concatenated
content pieces are non-empty, function-call exactly when the concatenated
name pieces are non-empty (carrying the concatenated name and arguments),
and tool-calls exactly when some fragment carried a tool-calls field; when
at least one tool-call fragment was accumulated the indexer produces at
least one record, and a message with none of the three set is a legal
result, not an error. -/
theorem c3_amended_finalization (ds : List ChoiceDelta) (m : Message)
    (h : assembleMessage ds = .ok m) :
    m.content = (if totC ds == "" then none else some (totC ds)) ∧
    m.function_call = (if totN ds == "" then none
      else some ⟨some (totN ds), some (totA ds)⟩) ∧
    m.tool_calls.isSome = anyTool ds ∧
    (totT ds ≠ [] → ∃ recs, m.tool_calls = some recs ∧ recs ≠ []) ∧
    assembleMessage [] = .ok { role := "assistant" } := by
  have hc := foldDeltas_content ds {}
  have hn := foldDeltas_fnName ds {}
  have ha := foldDeltas_fnArgs ds {}
  have ht := foldDeltas_tool ds {}
  simp only [show ({} : StreamAcc).content = "" from rfl,
    show ({} : StreamAcc).fnName = "" from rfl,
    show ({} : StreamAcc).fnArgs = "" from rfl,
    show ({} : StreamAcc).toolDeltas = none from rfl] at hc hn ha ht
  simp only [String.empty_append] at hc hn ha
  unfold assembleMessage at h
  cases htool : (foldDeltas {} ds).toolDeltas with
  | none =>
      rw [finalizeMessage_eq_none _ htool] at h
      have hm : m = mkStreamMsg (foldDeltas {} ds) none := by cases h; rfl
      have hany : anyTool ds = false := by
        cases hx : anyTool ds with
        | false => rfl
        | true => rw [hx] at ht; simp at ht; rw [ht] at htool; cases htool
      refine ⟨?_, ?_, ?_, ?_, rfl⟩
      · rw [hm]; simp [mkStreamMsg, hc]
      · rw [hm]; simp [mkStreamMsg, hn, ha]
      · rw [hm]; simp [mkStreamMsg, hany]
      · intro hne
        exact absurd (anyTool_false_totT ds hany) hne
  | some tds =>
      rw [finalizeMessage_eq_some _ tds htool] at h
      have hany : anyTool ds = true := by
        cases hx : anyTool ds with
        | true => rfl
        | false => rw [hx] at ht; simp at ht; rw [ht] at htool; cases htool
      have htds : tds = totT ds := by
        rw [hany] at ht
        simp at ht
        rw [ht] at htool
        injection htool with hv
        exact hv.symm
      cases hb : buildToolCalls tds with
      | error e => rw [hb] at h; simp [Except.map] at h
      | ok recs =>
          rw [hb] at h
          simp only [Except.map] at h
          have hm : m = mkStreamMsg (foldDeltas {} ds) (some recs) := by cases h; rfl
          refine ⟨?_, ?_, ?_, ?_, rfl⟩
          · rw [hm]; simp [mkStreamMsg, hc]
          · rw [hm]; simp [mkStreamMsg, hn, ha]
          · rw [hm]; simp [mkStreamMsg, hany]
          · intro hne
            refine ⟨recs, by rw [hm]; simp [mkStreamMsg], ?_⟩
            rw [← htds] at hne
            cases htd : tds with
            | nil => rw [htd] at hne; exact absurd rfl hne
            | cons d0 rest =>
                rw [htd] at hb
                rw [buildToolCalls, buildAux_cons_none [] d0 rest (by simp)] at hb
                have hlen := buildAux_length_le rest _ _ hb
                have hone : (pyInsert ([] : List ToolCallRec) d0.index (createRec d0)).length = 1 := by
                  simp [pyInsert]
                intro hrec
                rw [hrec] at hlen
                rw [hone] at hlen
                simp at hlen

/-- Witness for C3 as amended: a concrete stream with a content piece and
one tool-call fragment satisfies the finalization characterization. -/
theorem c3_amended_finalization_witness :
    ∃ m, assembleMessage [contentFrag "hi", toolFrag (idxDelta 0 "f" "x")] = .ok m ∧
      m.content = (if totC [contentFrag "hi", toolFrag (idxDelta 0 "f" "x")] == ""
        then none else some (totC [contentFrag "hi", toolFrag (idxDelta 0 "f" "x")])) ∧
      m.tool_calls.isSome = anyTool [contentFrag "hi", toolFrag (idxDelta 0 "f" "x")] :=
  ⟨_, rfl,
    (c3_amended_finalization [contentFrag "hi", toolFrag (idxDelta 0 "f" "x")] _ rfl).1,
    (c3_amended_finalization [contentFrag "hi", toolFrag (idxDelta 0 "f" "x")] _ rfl).2.2.1⟩

/-- Setting an index to the value it already holds leaves a list unchanged. -/
theorem set_getElem_self {α : Type} (l : List α) :
    ∀ (i : Nat) (a : α), l[i]? = some a → l.set i a = l := by
  induction l with
  | nil => intro i a h; cases h
  | cons x xs ih =>
      intro i a h
      cases i with
      | zero =>
          simp at h
          simp [h]
      | succ j =>
          simp at h
          simp [ih j a h]

/-- The shape of a freshly created record reflects exactly which pieces the
first fragment carried. -/
theorem recShape_createRec (d : ToolCallDelta) :
    recShape (createRec d) = ((deltaName d).isSome, (deltaArgs d).isSome) := by
  cases hn : deltaName d <;> cases ha : deltaArgs d <;>
    simp [createRec, recShape, hn, ha]

/-- Merging a later fragment succeeds whenever the record's function dict
already holds a string for every piece the fragment carries, and the merge
preserves the record's shape. -/
theorem mergeInto_total (r : ToolCallRec) (d : ToolCallDelta)
    (h1 : (deltaName d).isSome = true → (recShape r).1 = true)
    (h2 : (deltaArgs d).isSome = true → (recShape r).2 = true) :
    ∃ r1, mergeInto r d = .ok r1 ∧ recShape r1 = recShape r := by
  rcases r with ⟨i, t, _ | ⟨_ | rn, _ | ra⟩⟩ <;>
    cases hn : deltaName d <;> cases ha : deltaArgs d <;>
      cases hi : d.id <;> cases hty : d.type <;>
        simp [recShape, hn, ha] at h1 h2 <;>
          simp [mergeInto, hn, ha, hi, hty, recShape]

/-- The indexer succeeds on every well-formed fragment stream: the shapes
simulation `streamOk` is preserved along the fold. -/
theorem buildAux_total (ds : List ToolCallDelta) :
    ∀ (recs : List ToolCallRec) (shapes : List (Bool × Bool)),
      recs.map recShape = shapes → streamOk shapes ds = true →
      ∃ out, buildAux recs ds = .ok out := by
  induction ds with
  | nil => intro recs shapes hmap hok; exact ⟨recs, rfl⟩
  | cons d rest ih =>
      intro recs shapes hmap hok
      unfold streamOk at hok
      split at hok
      · next hs =>
          rw [Bool.and_assoc, Bool.and_eq_true, Bool.and_eq_true] at hok
          obtain ⟨h1, h2, h3⟩ := hok
          have hidx : d.index = shapes.length := by simpa using h1
          have hrlen : recs.length = shapes.length := by
            rw [← hmap]; simp
          have hrg : recs[d.index]? = none :=
            List.getElem?_eq_none (by omega)
          rw [buildAux_cons_none recs d rest hrg]
          apply ih _ (shapes ++ [((deltaName d).isSome, (deltaArgs d).isSome)]) _ h3
          have hins : pyInsert recs d.index (createRec d) = recs ++ [createRec d] := by
            rw [hidx, ← hrlen]
            exact pyInsert_length_eq_append recs (createRec d)
          rw [hins]
          simp [hmap, recShape_createRec]
      · next p hs =>
          rw [Bool.and_assoc, Bool.and_eq_true, Bool.and_eq_true] at hok
          obtain ⟨h1, h2, h3⟩ := hok
          have hr : ∃ r, recs[d.index]? = some r ∧ recShape r = p := by
            have : (recs.map recShape)[d.index]? = some p := by rw [hmap]; exact hs
            rw [List.getElem?_map] at this
            exact Option.map_eq_some'.mp this
          obtain ⟨r, hget, hshape⟩ := hr
          have hm1 : (deltaName d).isSome = true → (recShape r).1 = true := by
            intro hx
            rw [hshape]
            cases hdn : (deltaName d).isSome with
            | false => rw [hdn] at hx; cases hx
            | true => rw [hdn] at h1; simpa using h1
          have hm2 : (deltaArgs d).isSome = true → (recShape r).2 = true := by
            intro hx
            rw [hshape]
            cases hda : (deltaArgs d).isSome with
            | false => rw [hda] at hx; cases hx
            | true => rw [hda] at h2; simpa using h2
          obtain ⟨r1, hmerge, hpres⟩ := mergeInto_total r d hm1 hm2
          rw [buildAux_cons_merge recs d rest r r1 hget hmerge]
          apply ih _ shapes _ h3
          rw [List.map_set, hpres, hshape]
          rw [hmap]
          apply set_getElem_self
          exact hs

/-- Claim C9: the streaming tool-call merge is total exactly under the
first-fragment discipline: on any stream accepted by `streamOk` (fragments
arrive at the next index first, the first fragment at each index creates
the function strings, and later fragments only extend strings that exist)
the indexer succeeds; and the concrete stream whose first fragment at index
0 carries only an id, followed by a name piece for the same index, reaches
the concatenation onto the absent function dict and fails. -/
theorem c9_merge_totality (ds : List ToolCallDelta) (h : streamOk [] ds = true) :
    (∃ recs, buildToolCalls ds = .ok recs) ∧
    streamOk []
      [⟨0, some "call_1", some "function", none⟩,
       ⟨0, none, none, some ⟨some "f", none⟩⟩] = false ∧
    buildToolCalls
      [⟨0, some "call_1", some "function", none⟩,
       ⟨0, none, none, some ⟨some "f", none⟩⟩] =
      .error "TypeError: tool call function is None" :=
  ⟨buildAux_total ds [] [] rfl h, rfl, rfl⟩

/-- Witness for C9: a stream with two interleaved well-formed tool calls is
accepted by the discipline and merges successfully. -/
theorem c9_merge_totality_witness :
    ∃ recs, buildToolCalls
      [⟨0, some "id0", some "function", some ⟨some "ge", some "x"⟩⟩,
       ⟨1, some "id1", some "function", some ⟨some "h", some "z"⟩⟩,
       ⟨0, none, none, some ⟨some "t", some "y"⟩⟩] = .ok recs :=
  (c9_merge_totality
    [⟨0, some "id0", some "function", some ⟨some "ge", some "x"⟩⟩,
     ⟨1, some "id1", some "function", some ⟨some "h", some "z"⟩⟩,
     ⟨0, none, none, some ⟨some "t", some "y"⟩⟩] rfl).1

/-- Merging any fragment into a record whose function dict holds both
strings always succeeds: name and arguments are concatenated, id and type
overwritten only when the fragment supplies them. -/
theorem mergeInto_full (i t : Option String) (n0 a0 : String) (d : ToolCallDelta) :
    mergeInto ⟨i, t, some ⟨some n0, some a0⟩⟩ d =
      .ok ⟨(match d.id with | none => i | some x => some x),
           (match d.type with | none => t | some x => some x),
           some ⟨some (n0 ++ (deltaName d).getD ""), some (a0 ++ (deltaArgs d).getD "")⟩⟩ := by
  cases hn : deltaName d <;> cases ha : deltaArgs d <;>
    cases hi : d.id <;> cases hty : d.type <;>
      simp [mergeInto, hn, ha, hi, hty]

/-- After both interleaved indices have records, every further fragment
merges into its own record, concatenating pieces in arrival order. -/
theorem buildAux_interleave_two (rest : List (Bool × String × String)) :
    ∀ (n0 a0 n1 a1 : String),
      buildAux [plainRec n0 a0, plainRec n1 a1] (encodeInterleave rest) =
        .ok [plainRec (n0 ++ sideNames false rest) (a0 ++ sideArgs false rest),
             plainRec (n1 ++ sideNames true rest) (a1 ++ sideArgs true rest)] := by
  induction rest with
  | nil =>
      intro n0 a0 n1 a1
      simp [encodeInterleave, buildAux, sideNames, sideArgs]
  | cons p rest ih =>
      rcases p with ⟨b, nm, ar⟩
      intro n0 a0 n1 a1
      cases b
      · rw [show encodeInterleave ((false, nm, ar) :: rest) =
            idxDelta 0 nm ar :: encodeInterleave rest from rfl]
        rw [buildAux_cons_merge [plainRec n0 a0, plainRec n1 a1] (idxDelta 0 nm ar)
          (encodeInterleave rest) (plainRec n0 a0)
          (plainRec (n0 ++ nm) (a0 ++ ar)) rfl rfl]
        rw [show ([plainRec n0 a0, plainRec n1 a1].set (idxDelta 0 nm ar).index
            (plainRec (n0 ++ nm) (a0 ++ ar))) =
          [plainRec (n0 ++ nm) (a0 ++ ar), plainRec n1 a1] from rfl]
        rw [ih]
        simp [sideNames, sideArgs, String.append_assoc]
      · rw [show encodeInterleave ((true, nm, ar) :: rest) =
            idxDelta 1 nm ar :: encodeInterleave rest from rfl]
        rw [buildAux_cons_merge [plainRec n0 a0, plainRec n1 a1] (idxDelta 1 nm ar)
          (encodeInterleave rest) (plainRec n1 a1)
          (plainRec (n1 ++ nm) (a1 ++ ar)) rfl rfl]
        rw [show ([plainRec n0 a0, plainRec n1 a1].set (idxDelta 1 nm ar).index
            (plainRec (n1 ++ nm) (a1 ++ ar))) =
          [plainRec n0 a0, plainRec (n1 ++ nm) (a1 ++ ar)] from rfl]
        rw [ih]
        simp [sideNames, sideArgs, String.append_assoc]

/-- While only index 0 has a record, index-0 fragments merge into it and
the first index-1 fragment creates the second record, after which both
sides accumulate independently. -/
theorem buildAux_interleave_one (rest : List (Bool × String × String)) :
    ∀ (n0 a0 : String),
      buildAux [plainRec n0 a0] (encodeInterleave rest) =
        .ok (if rest.any (fun p => p.1) then
          [plainRec (n0 ++ sideNames false rest) (a0 ++ sideArgs false rest),
           plainRec (sideNames true rest) (sideArgs true rest)]
        else [plainRec (n0 ++ sideNames false rest) (a0 ++ sideArgs false rest)]) := by
  induction rest with
  | nil =>
      intro n0 a0
      simp [encodeInterleave, buildAux, sideNames, sideArgs]
  | cons p rest ih =>
      rcases p with ⟨b, nm, ar⟩
      intro n0 a0
      cases b
      · rw [show encodeInterleave ((false, nm, ar) :: rest) =
            idxDelta 0 nm ar :: encodeInterleave rest from rfl]
        rw [buildAux_cons_merge [plainRec n0 a0] (idxDelta 0 nm ar)
          (encodeInterleave rest) (plainRec n0 a0)
          (plainRec (n0 ++ nm) (a0 ++ ar)) rfl rfl]
        rw [show ([plainRec n0 a0].set (idxDelta 0 nm ar).index
            (plainRec (n0 ++ nm) (a0 ++ ar))) =
          [plainRec (n0 ++ nm) (a0 ++ ar)] from rfl]
        rw [ih]
        cases h : rest.any (fun p => p.1) <;>
          simp [h, sideNames, sideArgs, String.append_assoc]
      · rw [show encodeInterleave ((true, nm, ar) :: rest) =
            idxDelta 1 nm ar :: encodeInterleave rest from rfl]
        rw [buildAux_cons_none [plainRec n0 a0] (idxDelta 1 nm ar)
          (encodeInterleave rest) (by rfl)]
        rw [show pyInsert [plainRec n0 a0] (idxDelta 1 nm ar).index
            (createRec (idxDelta 1 nm ar)) =
          [plainRec n0 a0, plainRec nm ar] from rfl]
        rw [buildAux_interleave_two rest]
        simp [sideNames, sideArgs, String.append_assoc]

/-- Counterexample to claim C1: when the first fragment carries index 1 and
a later fragment carries index 0, `list.insert` places the index-1 record
at position 0 and the index-0 fragment merges into it: the result is one
mixed record, not two. -/
theorem c1_counterexample :
    buildToolCalls (encodeInterleave [(true, "b", "B"), (false, "a", "A")]) =
      .ok [plainRec "ba" "BA"] ∧
    ([plainRec "ba" "BA"]).length = 1 :=
  ⟨rfl, rfl⟩

/-- Claim C1 as amended: provided the first fragment overall is for index 0
(so that first occurrences arrive in index order), interleaving index-0 and
index-1 fragments in any order yields exactly two records whose
name/arguments are the concatenations of each index's pieces in arrival
order; and merging into an existing full record concatenates name and
arguments and overwrites id and type only when the fragment supplies a
non-absent value. -/
theorem c1_amended_interleave (nm ar : String) (rest : List (Bool × String × String))
    (h : rest.any (fun p => p.1) = true) :
    buildToolCalls (encodeInterleave ((false, nm, ar) :: rest)) =
      .ok [plainRec (sideNames false ((false, nm, ar) :: rest))
                    (sideArgs false ((false, nm, ar) :: rest)),
           plainRec (sideNames true ((false, nm, ar) :: rest))
                    (sideArgs true ((false, nm, ar) :: rest))] ∧
    (∀ (i t : Option String) (n0 a0 : String) (d : ToolCallDelta),
      mergeInto ⟨i, t, some ⟨some n0, some a0⟩⟩ d =
        .ok ⟨(match d.id with | none => i | some x => some x),
             (match d.type with | none => t | some x => some x),
             some ⟨some (n0 ++ (deltaName d).getD ""),
                   some (a0 ++ (deltaArgs d).getD "")⟩⟩) := by
  constructor
  · rw [buildToolCalls, show encodeInterleave ((false, nm, ar) :: rest) =
        idxDelta 0 nm ar :: encodeInterleave rest from rfl]
    rw [buildAux_cons_none [] (idxDelta 0 nm ar)
      (encodeInterleave rest) (by rfl)]
    rw [show pyInsert [] (idxDelta 0 nm ar).index (createRec (idxDelta 0 nm ar)) =
      [plainRec nm ar] from rfl]
    rw [buildAux_interleave_one rest, h]
    simp [sideNames, sideArgs]
  · exact mergeInto_full

/-- Witness for C1 as amended: a concrete 0,1,0,1 interleaving yields the
two concatenated records. -/
theorem c1_amended_interleave_witness :
    buildToolCalls (encodeInterleave
      [(false, "ge", "x"), (true, "se", "y"), (false, "t", "z"), (true, "t2", "w")]) =
      .ok [plainRec (sideNames false
              [(false, "ge", "x"), (true, "se", "y"), (false, "t", "z"), (true, "t2", "w")])
            (sideArgs false
              [(false, "ge", "x"), (true, "se", "y"), (false, "t", "z"), (true, "t2", "w")]),
           plainRec (sideNames true
              [(false, "ge", "x"), (true, "se", "y"), (false, "t", "z"), (true, "t2", "w")])
            (sideArgs true
              [(false, "ge", "x"), (true, "se", "y"), (false, "t", "z"), (true, "t2", "w")])] :=
  (c1_amended_interleave "ge" "x" [(true, "se", "y"), (false, "t", "z"), (true, "t2", "w")]
    rfl).1

/-- Folding a concatenation of fragment streams is folding one after the
other. -/
theorem foldDeltas_append (l1 l2 : List ChoiceDelta) :
    ∀ s : StreamAcc, foldDeltas s (l1 ++ l2) = foldDeltas (foldDeltas s l1) l2 := by
  induction l1 with
  | nil => intro s; rfl
  | cons d rest ih => intro s; rw [List.cons_append, foldDeltas, foldDeltas, ih]


/-- The indexer over a concatenation runs the first part, then the second
on its output. -/
theorem buildAux_append (l1 l2 : List ToolCallDelta) :
    ∀ recs : List ToolCallRec, buildAux recs (l1 ++ l2) =
      (buildAux recs l1).bind (fun r => buildAux r l2) := by
  induction l1 with
  | nil => intro recs; rfl
  | cons d rest ih =>
      intro recs
      rw [List.cons_append]
      cases hg : recs[d.index]? with
      | none =>
          rw [buildAux_cons_none recs d (rest ++ l2) hg,
            buildAux_cons_none recs d rest hg, ih]
      | some r =>
          cases hm : mergeInto r d with
          | error e =>
              rw [buildAux_cons_merge_err recs d (rest ++ l2) r e hg hm,
                buildAux_cons_merge_err recs d rest r e hg hm]
              rfl
          | ok r1 =>
              rw [buildAux_cons_merge recs d (rest ++ l2) r r1 hg hm,
                buildAux_cons_merge recs d rest r r1 hg hm, ih]

/-- Setting the last position of a snoc list replaces its last element. -/
theorem set_append_length {α : Type} (base : List α) (r r' : α) :
    (base ++ [r]).set base.length r' = base ++ [r'] := by
  induction base with
  | nil => rfl
  | cons x xs ih => simp [ih]

/-- The head-or-empty piece followed by the joined tail is the whole join. -/
theorem headD_append_strJoin_tail (ps : List String) :
    ps.headD "" ++ strJoin ps.tail = strJoin ps := by
  cases ps with
  | nil => rfl
  | cons p tl => rfl

/-- Continuation fragments of one split tool call concatenate their pieces
onto the arguments string of the last record. -/
theorem buildAux_contList (ps : List String) :
    ∀ (base : List ToolCallRec) (i t : Option String) (n fa : String),
      buildAux (base ++ [⟨i, t, some ⟨some n, some fa⟩⟩]) (contDeltas base.length ps) =
        .ok (base ++ [⟨i, t, some ⟨some n, some (fa ++ strJoin ps)⟩⟩]) := by
  induction ps with
  | nil =>
      intro base i t n fa
      simp [contDeltas, buildAux, strJoin]
  | cons p tl ih =>
      intro base i t n fa
      rw [show contDeltas base.length (p :: tl) =
        (⟨base.length, none, none, some ⟨none, some p⟩⟩ : ToolCallDelta) ::
          contDeltas base.length tl from rfl]
      rw [buildAux_cons_merge (base ++ [⟨i, t, some ⟨some n, some fa⟩⟩])
        ⟨base.length, none, none, some ⟨none, some p⟩⟩
        (contDeltas base.length tl)
        ⟨i, t, some ⟨some n, some fa⟩⟩
        ⟨i, t, some ⟨some n, some (fa ++ p)⟩⟩
        (List.getElem?_concat_length base _) rfl]
      rw [show ((⟨base.length, none, none, some ⟨none, some p⟩⟩ : ToolCallDelta)).index =
        base.length from rfl]
      rw [set_append_length base
        (⟨i, t, some ⟨some n, some fa⟩⟩ : ToolCallRec)
        (⟨i, t, some ⟨some n, some (fa ++ p)⟩⟩ : ToolCallRec)]
      rw [ih]
      simp [strJoin, String.append_assoc]

/-- The split encoding of a list of tool calls builds exactly the finished
records, appended in order after any existing records. -/
theorem buildAux_splitDeltas (ts : List ToolSpec) :
    ∀ base : List ToolCallRec, (∀ t ∈ ts, strJoin t.pieces = t.fargs) →
      buildAux base (splitDeltas base.length ts) = .ok (base ++ ts.map fullRec) := by
  induction ts with
  | nil => intro base h; simp [splitDeltas, buildAux]
  | cons t ts ih =>
      intro base h
      rw [show splitDeltas base.length (t :: ts) =
        (openDelta base.length t :: contDeltas base.length t.pieces.tail) ++
          splitDeltas (base.length + 1) ts from rfl]
      rw [buildAux_append]
      have hfirst : buildAux base
          (openDelta base.length t :: contDeltas base.length t.pieces.tail) =
          .ok (base ++ [fullRec t]) := by
        rw [buildAux_cons_none base (openDelta base.length t)
          (contDeltas base.length t.pieces.tail)
          (List.getElem?_eq_none (Nat.le_refl _))]
        rw [show (openDelta base.length t).index = base.length from rfl]
        rw [pyInsert_length_eq_append]
        rw [show createRec (openDelta base.length t) =
          (⟨some t.id, some "function",
            some ⟨some t.fname, some (t.pieces.headD "")⟩⟩ : ToolCallRec) from rfl]
        rw [buildAux_contList t.pieces.tail base (some t.id) (some "function")
          t.fname (t.pieces.headD "")]
        rw [headD_append_strJoin_tail, h t (by simp)]
        rfl
      rw [hfirst]
      rw [show (Except.ok (base ++ [fullRec t]) :
          Except String (List ToolCallRec)).bind
          (fun r => buildAux r (splitDeltas (base.length + 1) ts)) =
        buildAux (base ++ [fullRec t]) (splitDeltas (base.length + 1) ts) from rfl]
      have hlen : base.length + 1 = (base ++ [fullRec t]).length := by simp
      rw [hlen, ih (base ++ [fullRec t]) (fun x hx => h x (by simp [hx]))]
      simp

/-- The one-fragment-per-call encoding builds the same finished records. -/
theorem buildAux_singleDeltas (ts : List ToolSpec) :
    ∀ base : List ToolCallRec,
      buildAux base (singleDeltas base.length ts) = .ok (base ++ ts.map fullRec) := by
  induction ts with
  | nil => intro base; simp [singleDeltas, buildAux]
  | cons t ts ih =>
      intro base
      rw [show singleDeltas base.length (t :: ts) =
        (⟨base.length, some t.id, some "function",
          some ⟨some t.fname, some t.fargs⟩⟩ : ToolCallDelta) ::
          singleDeltas (base.length + 1) ts from rfl]
      rw [buildAux_cons_none base _ _ (List.getElem?_eq_none (Nat.le_refl _))]
      rw [show ((⟨base.length, some t.id, some "function",
          some ⟨some t.fname, some t.fargs⟩⟩ : ToolCallDelta)).index =
        base.length from rfl]
      rw [pyInsert_length_eq_append]
      rw [show createRec ⟨base.length, some t.id, some "function",
          some ⟨some t.fname, some t.fargs⟩⟩ = fullRec t from rfl]
      have hlen : base.length + 1 = (base ++ [fullRec t]).length := by simp
      rw [hlen, ih (base ++ [fullRec t])]
      simp

/-- Feeding content pieces as separate fragments concatenates them onto the
content buffer and touches nothing else. -/
theorem foldDeltas_contentFrags (cs : List String) :
    ∀ s : StreamAcc, foldDeltas s (cs.map contentFrag) =
      { s with content := s.content ++ strJoin cs } := by
  induction cs with
  | nil => intro s; simp [foldDeltas, strJoin]
  | cons c rest ih =>
      intro s
      rw [List.map_cons, foldDeltas,
        show stepDelta s (contentFrag c) = { s with content := s.content ++ c } from rfl,
        ih]
      simp [strJoin, String.append_assoc]

/-- Feeding function-name pieces as separate fragments concatenates them
onto the name buffer and touches nothing else. -/
theorem foldDeltas_nameFrags (ns : List String) :
    ∀ s : StreamAcc, foldDeltas s (ns.map nameFrag) =
      { s with fnName := s.fnName ++ strJoin ns } := by
  induction ns with
  | nil => intro s; simp [foldDeltas, strJoin]
  | cons n rest ih =>
      intro s
      rw [List.map_cons, foldDeltas,
        show stepDelta s (nameFrag n) = { s with fnName := s.fnName ++ n } from rfl,
        ih]
      simp [strJoin, String.append_assoc]

/-- Feeding function-arguments pieces as separate fragments concatenates
them onto the arguments buffer and touches nothing else. -/
theorem foldDeltas_argFrags (args2 : List String) :
    ∀ s : StreamAcc, foldDeltas s (args2.map argFrag) =
      { s with fnArgs := s.fnArgs ++ strJoin args2 } := by
  induction args2 with
  | nil => intro s; simp [foldDeltas, strJoin]
  | cons a rest ih =>
      intro s
      rw [List.map_cons, foldDeltas,
        show stepDelta s (argFrag a) = { s with fnArgs := s.fnArgs ++ a } from rfl,
        ih]
      simp [strJoin, String.append_assoc]

/-- Feeding tool-call fragments one per wire fragment accumulates them in
order, creating the list on the first one. -/
theorem foldDeltas_toolFrags (ds : List ToolCallDelta) :
    ∀ s : StreamAcc, foldDeltas s (ds.map toolFrag) =
      { s with toolDeltas :=
          (match ds with
            | [] => s.toolDeltas
            | _ => some (s.toolDeltas.getD [] ++ ds)) } := by
  induction ds with
  | nil => intro s; simp [foldDeltas]
  | cons d rest ih =>
      intro s
      rw [List.map_cons, foldDeltas,
        show stepDelta s (toolFrag d) =
          { s with toolDeltas := some (s.toolDeltas.getD [] ++ [d]) } from rfl,
        ih]
      cases rest with
      | nil => simp
      | cons d2 rest2 => simp [List.append_assoc]

/-- Claim C2: splitting a complete message's content, function-call
name/arguments and per-tool-call arguments strings into ordered pieces and
feeding the pieces as separate fragments assembles the same message as
feeding the whole message as one fragment, and that message assembles
without error. -/
theorem c2_merge_fragmentation (c fn fa : String) (cs ns args2 : List String)
    (ts : List ToolSpec)
    (hc : strJoin cs = c) (hn : strJoin ns = fn) (ha : strJoin args2 = fa)
    (ht : ∀ t ∈ ts, strJoin t.pieces = t.fargs) :
    assembleMessage (splitStream cs ns args2 ts) =
      assembleMessage [wholeFrag c fn fa ts] ∧
    ∃ m, assembleMessage [wholeFrag c fn fa ts] = .ok m := by
  cases ts with
  | nil =>
      have hsplitAcc : foldDeltas {} (splitStream cs ns args2 []) =
          { content := "" ++ strJoin cs, fnName := "" ++ strJoin ns,
            fnArgs := "" ++ strJoin args2, toolDeltas := none } := by
        rw [splitStream, foldDeltas_append, foldDeltas_append, foldDeltas_append,
          foldDeltas_contentFrags cs {}, foldDeltas_nameFrags ns,
          foldDeltas_argFrags args2, foldDeltas_toolFrags (splitDeltas 0 [])]
        rfl
      have hwholeAcc : foldDeltas {} [wholeFrag c fn fa []] =
          { content := "" ++ c, fnName := "" ++ fn, fnArgs := "" ++ fa,
            toolDeltas := none } := rfl
      constructor
      · rw [assembleMessage, assembleMessage, hsplitAcc, hwholeAcc, hc, hn, ha]
      · rw [assembleMessage, hwholeAcc]
        exact ⟨_, rfl⟩
  | cons t ts2 =>
      have hsplitAcc : foldDeltas {} (splitStream cs ns args2 (t :: ts2)) =
          { content := "" ++ strJoin cs, fnName := "" ++ strJoin ns,
            fnArgs := "" ++ strJoin args2,
            toolDeltas := some (splitDeltas 0 (t :: ts2)) } := by
        rw [splitStream, foldDeltas_append, foldDeltas_append, foldDeltas_append,
          foldDeltas_contentFrags cs {}, foldDeltas_nameFrags ns,
          foldDeltas_argFrags args2, foldDeltas_toolFrags (splitDeltas 0 (t :: ts2))]
        rfl
      have hwholeAcc : foldDeltas {} [wholeFrag c fn fa (t :: ts2)] =
          { content := "" ++ c, fnName := "" ++ fn, fnArgs := "" ++ fa,
            toolDeltas := some (singleDeltas 0 (t :: ts2)) } := rfl
      have hsplit0 : buildToolCalls (splitDeltas 0 (t :: ts2)) =
          .ok ((t :: ts2).map fullRec) := by
        rw [buildToolCalls, show (0 : Nat) = ([] : List ToolCallRec).length from rfl,
          buildAux_splitDeltas (t :: ts2) [] ht]
        simp
      have hsingle0 : buildToolCalls (singleDeltas 0 (t :: ts2)) =
          .ok ((t :: ts2).map fullRec) := by
        rw [buildToolCalls, show (0 : Nat) = ([] : List ToolCallRec).length from rfl,
          buildAux_singleDeltas (t :: ts2) []]
        simp
      constructor
      · rw [assembleMessage, assembleMessage, hsplitAcc, hwholeAcc, hc, hn, ha]
        rw [finalizeMessage_eq_some _ (splitDeltas 0 (t :: ts2)) rfl,
          finalizeMessage_eq_some _ (singleDeltas 0 (t :: ts2)) rfl,
          hsplit0, hsingle0]
        rfl
      · rw [assembleMessage, hwholeAcc,
          finalizeMessage_eq_some _ (singleDeltas 0 (t :: ts2)) rfl, hsingle0]
        exact ⟨_, rfl⟩

/-- Witness for C2: a concrete message with content, a function call and
one tool call, split into pieces, assembles identically to the single
fragment. -/
theorem c2_merge_fragmentation_witness :
    assembleMessage (splitStream ["he", "llo"] ["ad", "d"] ["a=", "1"]
      [⟨"call_1", "calc", "b=2", ["b=", "2"]⟩]) =
      assembleMessage [wholeFrag "hello" "add" "a=1" [⟨"call_1", "calc", "b=2", ["b=", "2"]⟩]] :=
  (c2_merge_fragmentation "hello" "add" "a=1" ["he", "llo"] ["ad", "d"] ["a=", "1"]
    [⟨"call_1", "calc", "b=2", ["b=", "2"]⟩] rfl rfl rfl
    (by intro t htm; simp at htm; rw [htm]; rfl)).1

/-- The assistant draft copies the legacy function-call field verbatim. -/
theorem mkAssistant_function_call (r : ModelResp) :
    (mkAssistant r).function_call = r.function_call := rfl

/-- The assistant draft copies the tool-calls field verbatim. -/
theorem mkAssistant_tool_calls (r : ModelResp) :
    (mkAssistant r).tool_calls = r.tool_calls := rfl

/-- The assistant draft copies the content field verbatim. -/
theorem mkAssistant_content (r : ModelResp) :
    (mkAssistant r).content = r.content := rfl

/-- The assistant draft never carries a function name. -/
theorem mkAssistant_name (r : ModelResp) : (mkAssistant r).name = none := rfl

/-- Round bookkeeping does not change the run-tools flag. -/
theorem withRound_run_tools (st : GState) (r : ModelResp) :
    (withRound st r).run_tools = st.run_tools := rfl

/-- Round bookkeeping does not change the narration flag. -/
theorem withRound_show_tool_calls (st : GState) (r : ModelResp) :
    (withRound st r).show_tool_calls = st.show_tool_calls := rfl

/-- Round bookkeeping does not change the registry. -/
theorem withRound_functions (st : GState) (r : ModelResp) :
    (withRound st r).functions = st.functions := rfl

/-- Round bookkeeping does not change the tool choice. -/
theorem withRound_tool_choice (st : GState) (r : ModelResp) :
    (withRound st r).tool_choice = st.tool_choice := rfl

/-- Round bookkeeping does not change the call stack or its limit. -/
theorem withRound_stack (st : GState) (r : ModelResp) :
    (withRound st r).function_call_stack = st.function_call_stack ∧
    (withRound st r).function_call_limit = st.function_call_limit := ⟨rfl, rfl⟩

/-- One orchestration round on a model answer carrying a legacy
function-call: run it and recurse on the extended history, prefixing the
narration. -/
theorem responseRound_eq_legacy (oracle : Oracle)
    (recur : GState → List Message → Option RunOut)
    (st : GState) (messages : List Message) (fcd : FcDict)
    (hfc : (oracle messages st.tool_choice).function_call = some fcd)
    (hrt : st.run_tools = true) :
    responseRound oracle recur st messages =
      (recur (run_function (withRound st (oracle messages st.tool_choice)) fcd).2.2
        ((messages ++ [mkAssistant (oracle messages st.tool_choice)]) ++
          [(run_function (withRound st (oracle messages st.tool_choice)) fcd).1])).map
        (fun q =>
          ((match (run_function (withRound st (oracle messages st.tool_choice)) fcd).2.1 with
            | some fc => if st.show_tool_calls then narrateOne fc else ""
            | none => "") ++ q.1, q.2)) := by
  unfold responseRound
  simp only [mkAssistant_function_call, mkAssistant_tool_calls, hfc, hrt,
    withRound_run_tools, withRound_show_tool_calls, Option.isSome_some,
    Bool.true_or, Bool.and_self, if_true]

/-- One orchestration round on a model answer carrying tool-calls: resolve
all entries (appending error messages for failures), execute the resolved
ones, and recurse on the extended history. -/
theorem responseRound_eq_tool (oracle : Oracle)
    (recur : GState → List Message → Option RunOut)
    (st : GState) (messages : List Message) (tcs : List ToolCallRec)
    (hfc : (oracle messages st.tool_choice).function_call = none)
    (htc : (oracle messages st.tool_choice).tool_calls = some tcs)
    (hrt : st.run_tools = true) :
    responseRound oracle recur st messages =
      (recur (run_function_calls (withRound st (oracle messages st.tool_choice))
          (resolveToolCalls st.functions tcs).2).2
        (((messages ++ [mkAssistant (oracle messages st.tool_choice)]) ++
            (resolveToolCalls st.functions tcs).1) ++
          (run_function_calls (withRound st (oracle messages st.tool_choice))
            (resolveToolCalls st.functions tcs).2).1)).map
        (fun q =>
          ((if st.show_tool_calls then
              narrateMany (resolveToolCalls st.functions tcs).2 else "") ++ q.1, q.2)) := by
  unfold responseRound
  simp only [mkAssistant_function_call, mkAssistant_tool_calls, hfc, htc, hrt,
    withRound_run_tools, withRound_show_tool_calls, withRound_functions,
    Option.isSome_none, Option.isSome_some, Bool.false_or, Bool.true_or,
    Bool.and_self, if_true]

/-- One orchestration round with tool running disabled is terminal whatever
the model answered. -/
theorem responseRound_eq_noRun (oracle : Oracle)
    (recur : GState → List Message → Option RunOut)
    (st : GState) (messages : List Message)
    (hrt : st.run_tools = false) :
    responseRound oracle recur st messages =
      some ((match (oracle messages st.tool_choice).content with
              | some c => c
              | none => "Something went wrong, please try again."),
            withRound st (oracle messages st.tool_choice),
            messages ++ [mkAssistant (oracle messages st.tool_choice)]) := by
  unfold responseRound
  simp only [mkAssistant_function_call, mkAssistant_tool_calls, mkAssistant_content,
    hrt, withRound_run_tools, Bool.and_false, if_false]
  simp

/-- One orchestration round on a model answer with no calls is terminal. -/
theorem responseRound_eq_terminal (oracle : Oracle)
    (recur : GState → List Message → Option RunOut)
    (st : GState) (messages : List Message)
    (hfc : (oracle messages st.tool_choice).function_call = none)
    (htc : (oracle messages st.tool_choice).tool_calls = none) :
    responseRound oracle recur st messages =
      some ((match (oracle messages st.tool_choice).content with
              | some c => c
              | none => "Something went wrong, please try again."),
            withRound st (oracle messages st.tool_choice),
            messages ++ [mkAssistant (oracle messages st.tool_choice)]) := by
  unfold responseRound
  simp only [mkAssistant_function_call, mkAssistant_tool_calls, mkAssistant_content,
    hfc, htc, withRound_run_tools, Option.isSome_none, Bool.false_or,
    Bool.false_and, if_false]
  simp

/-- Prefixing the empty narration string changes nothing. -/
theorem map_empty_prefix (o : Option RunOut) :
    o.map (fun q => ("" ++ q.1, q.2)) = o := by
  cases o with
  | none => rfl
  | some q =>
      rcases q with ⟨s, st, ms⟩
      simp

/-- Claim C6: a requested call whose name is not registered or whose
arguments fail to decode never raises: on the legacy path the orchestrator
appends a role-"function" message with the explanatory string, on the
tool-calls path a role-"tool" message carrying the call's id, excludes the
entry from execution (state untouched beyond round metrics), and continues
with a further model round on the extended history. -/
theorem c6_error_surfacing :
    (∀ (oracle : Oracle) (fuel : Nat) (st : GState) (msgs : List Message)
        (d : FcDict) (n : String),
      st.run_tools = true →
      (oracle msgs st.tool_choice).function_call = some d →
      d.name = some n →
      get_function_call n d.arguments st.functions = none →
      response oracle (fuel + 1) st msgs =
        response oracle fuel (withRound st (oracle msgs st.tool_choice))
          (msgs ++ [mkAssistant (oracle msgs st.tool_choice),
            { role := "function", content := some "Could not find function to call." }])) ∧
    (∀ (oracle : Oracle) (fuel : Nat) (st : GState) (msgs : List Message)
        (d : FcDict) (n : String) (fc : FunctionCall) (e : String),
      st.run_tools = true →
      st.show_tool_calls = false →
      (oracle msgs st.tool_choice).function_call = some d →
      d.name = some n →
      get_function_call n d.arguments st.functions = some fc →
      fc.error = some e →
      response oracle (fuel + 1) st msgs =
        response oracle fuel (withRound st (oracle msgs st.tool_choice))
          (msgs ++ [mkAssistant (oracle msgs st.tool_choice),
            { role := "function", content := some e }])) ∧
    (∀ (oracle : Oracle) (fuel : Nat) (st : GState) (msgs : List Message)
        (tc : ToolCallRec),
      st.run_tools = true →
      (oracle msgs st.tool_choice).function_call = none →
      (oracle msgs st.tool_choice).tool_calls = some [tc] →
      get_function_call_for_tool_call tc st.functions = none →
      response oracle (fuel + 1) st msgs =
        response oracle fuel (withRound st (oracle msgs st.tool_choice))
          (msgs ++ [mkAssistant (oracle msgs st.tool_choice),
            { role := "tool", tool_call_id := tc.id,
              content := some "Could not find function to call." }])) ∧
    (∀ (oracle : Oracle) (fuel : Nat) (st : GState) (msgs : List Message)
        (tc : ToolCallRec) (fc : FunctionCall) (e : String),
      st.run_tools = true →
      (oracle msgs st.tool_choice).function_call = none →
      (oracle msgs st.tool_choice).tool_calls = some [tc] →
      get_function_call_for_tool_call tc st.functions = some fc →
      fc.error = some e →
      response oracle (fuel + 1) st msgs =
        response oracle fuel (withRound st (oracle msgs st.tool_choice))
          (msgs ++ [mkAssistant (oracle msgs st.tool_choice),
            { role := "tool", tool_call_id := tc.id, content := some e }])) := by
  refine ⟨?_, ?_, ?_, ?_⟩
  · intro oracle fuel st msgs d n hrt hfc hn hres
    rw [show response oracle (fuel + 1) st msgs =
      responseRound oracle (response oracle fuel) st msgs from rfl]
    rw [responseRound_eq_legacy oracle _ st msgs d hfc hrt]
    have hrf : run_function (withRound st (oracle msgs st.tool_choice)) d =
        ({ role := "function", content := some "Could not find function to call." },
         none, withRound st (oracle msgs st.tool_choice)) := by
      unfold run_function
      simp only [hn, withRound_functions, hres]
    rw [hrf]
    rw [show ((msgs ++ [mkAssistant (oracle msgs st.tool_choice)]) ++
        [({ role := "function", content := some "Could not find function to call." } :
          Message)]) =
      msgs ++ [mkAssistant (oracle msgs st.tool_choice),
        { role := "function", content := some "Could not find function to call." }] from
      by simp]
    exact map_empty_prefix _
  · intro oracle fuel st msgs d n fc e hrt hshow hfc hn hres herr
    rw [show response oracle (fuel + 1) st msgs =
      responseRound oracle (response oracle fuel) st msgs from rfl]
    rw [responseRound_eq_legacy oracle _ st msgs d hfc hrt]
    have hrf : run_function (withRound st (oracle msgs st.tool_choice)) d =
        ({ role := "function", content := some e },
         some fc, withRound st (oracle msgs st.tool_choice)) := by
      unfold run_function
      simp only [hn, withRound_functions, hres, herr]
    rw [hrf, hshow]
    rw [show ((msgs ++ [mkAssistant (oracle msgs st.tool_choice)]) ++
        [({ role := "function", content := some e } : Message)]) =
      msgs ++ [mkAssistant (oracle msgs st.tool_choice),
        { role := "function", content := some e }] from by simp]
    exact map_empty_prefix _
  · intro oracle fuel st msgs tc hrt hfc htc hres
    rw [show response oracle (fuel + 1) st msgs =
      responseRound oracle (response oracle fuel) st msgs from rfl]
    rw [responseRound_eq_tool oracle _ st msgs [tc] hfc htc hrt]
    have hresolve : resolveToolCalls st.functions [tc] =
        ([{ role := "tool", tool_call_id := tc.id,
            content := some "Could not find function to call." }], []) := by
      simp only [resolveToolCalls, hres]
    rw [hresolve]
    rw [show run_function_calls (withRound st (oracle msgs st.tool_choice)) [] =
      ([], withRound st (oracle msgs st.tool_choice)) from rfl]
    rw [show (((msgs ++ [mkAssistant (oracle msgs st.tool_choice)]) ++
        [({ role := "tool", tool_call_id := tc.id,
            content := some "Could not find function to call." } : Message)]) ++ []) =
      msgs ++ [mkAssistant (oracle msgs st.tool_choice),
        { role := "tool", tool_call_id := tc.id,
          content := some "Could not find function to call." }] from by simp]
    cases hshow : st.show_tool_calls with
    | true => rw [if_pos rfl]; exact map_empty_prefix _
    | false => rw [if_neg (by simp)]; exact map_empty_prefix _
  · intro oracle fuel st msgs tc fc e hrt hfc htc hres herr
    rw [show response oracle (fuel + 1) st msgs =
      responseRound oracle (response oracle fuel) st msgs from rfl]
    rw [responseRound_eq_tool oracle _ st msgs [tc] hfc htc hrt]
    have hresolve : resolveToolCalls st.functions [tc] =
        ([{ role := "tool", tool_call_id := tc.id, content := some e }], []) := by
      simp only [resolveToolCalls, hres, herr]
    rw [hresolve]
    rw [show run_function_calls (withRound st (oracle msgs st.tool_choice)) [] =
      ([], withRound st (oracle msgs st.tool_choice)) from rfl]
    rw [show (((msgs ++ [mkAssistant (oracle msgs st.tool_choice)]) ++
        [({ role := "tool", tool_call_id := tc.id, content := some e } : Message)]) ++ []) =
      msgs ++ [mkAssistant (oracle msgs st.tool_choice),
        { role := "tool", tool_call_id := tc.id, content := some e }] from by simp]
    cases hshow : st.show_tool_calls with
    | true => rw [if_pos rfl]; exact map_empty_prefix _
    | false => rw [if_neg (by simp)]; exact map_empty_prefix _

/-- Witness for C6: requesting the unregistered function "nope" appends the
explanatory result message and the run continues with another round. -/
theorem c6_error_surfacing_witness :
    response (fun ms _ => if ms.length == 0 then
        ({ function_call := some ⟨some "nope", some "x"⟩ } : ModelResp)
      else { content := some "done" }) 2 {} [] =
      response (fun ms _ => if ms.length == 0 then
          ({ function_call := some ⟨some "nope", some "x"⟩ } : ModelResp)
        else { content := some "done" }) 1
        (withRound {} { function_call := some ⟨some "nope", some "x"⟩ })
        [mkAssistant { function_call := some ⟨some "nope", some "x"⟩ },
         { role := "function", content := some "Could not find function to call." }] :=
  c6_error_surfacing.1 _ 1 {} [] ⟨some "nope", some "x"⟩ "nope" rfl rfl rfl rfl

/-- A resolvable call hitting the depth limit: refusal message, call
requests disabled, stack unchanged. -/
theorem run_function_resolved_limit (st : GState) (d : FcDict) (n : String)
    (fc : FunctionCall)
    (hn : d.name = some n)
    (hres : get_function_call n d.arguments st.functions = some fc)
    (herr : fc.error = none)
    (hlim : (st.function_call_stack.getD []).length > st.function_call_limit) :
    run_function st d =
      (limitFnMsg st.function_call_limit, some fc,
       { st with function_call_stack := some (st.function_call_stack.getD []),
                 tool_choice := some "none" }) := by
  simp [run_function, hn, hres, herr, hlim, limitFnMsg]

/-- A resolvable call under the depth limit: push, execute, record. -/
theorem run_function_resolved_exec (st : GState) (d : FcDict) (n : String)
    (fc : FunctionCall)
    (hn : d.name = some n)
    (hres : get_function_call n d.arguments st.functions = some fc)
    (herr : fc.error = none)
    (hlim : ¬ (st.function_call_stack.getD []).length > st.function_call_limit) :
    run_function st d =
      ({ role := "function", name := some fc.function.fname,
         content := some fc.result, metricsTime := some 0 },
       some fc,
       { st with
           function_call_stack := some (st.function_call_stack.getD [] ++ [fc]),
           metrics := { st.metrics with
             function_call_times :=
               some (fctAppend (st.metrics.function_call_times.getD [])
                 fc.function.fname 0) } }) := by
  simp [run_function, hn, hres, herr, hlim]

/-- Running a function never changes the run-tools flag. -/
theorem run_function_preserves_run_tools (st : GState) (d : FcDict) :
    ((run_function st d).2.2).run_tools = st.run_tools := by
  unfold run_function
  cases hn : d.name with
  | none => rfl
  | some n =>
      simp only [hn]
      cases hres : get_function_call n d.arguments st.functions with
      | none => rfl
      | some fc =>
          simp only [hres]
          cases herr : fc.error with
          | some e => rfl
          | none =>
              simp only [herr]
              split <;> rfl

/-- Round bookkeeping does not change the call-depth limit. -/
theorem withRound_limit (st : GState) (r : ModelResp) :
    (withRound st r).function_call_limit = st.function_call_limit := rfl

/-- Core of the depth-limit run: from a state whose stack is `j` short of
overflowing, the self-calling model is executed `j` times, the next round
is refused with the limit message and call requests are disabled, and the
round after that is terminal. -/
theorem c5_run_lemma (j : Nat) :
    ∀ (st : GState) (msgs : List Message),
      st.functions = [fReg] →
      st.run_tools = true →
      (st.tool_choice == some "none") = false →
      (st.function_call_stack.getD []).length + j = st.function_call_limit + 1 →
      ∃ out stF msgsF, response advOracle (j + 2) st msgs = some (out, stF, msgsF) ∧
        limitFnMsg st.function_call_limit ∈ msgsF := by
  induction j with
  | zero =>
      intro st msgs hfns hrt htc hlen
      have hadv : advOracle msgs st.tool_choice = selfCallResp := by
        unfold advOracle
        rw [htc]
        simp
      rw [show response advOracle (0 + 2) st msgs =
        responseRound advOracle (response advOracle 1) st msgs from rfl]
      rw [responseRound_eq_legacy advOracle _ st msgs ⟨some "f", some "x"⟩
        (by rw [hadv]; rfl) hrt]
      have hres : get_function_call "f" (some "x")
          (withRound st (advOracle msgs st.tool_choice)).functions =
          some ⟨fReg, some "x", none, none, "ok"⟩ := by
        rw [withRound_functions, hfns]
        rfl
      have hlim : ((withRound st (advOracle msgs st.tool_choice)).function_call_stack.getD
          []).length > (withRound st (advOracle msgs st.tool_choice)).function_call_limit := by
        rw [(withRound_stack st _).1, (withRound_stack st _).2]
        omega
      rw [run_function_resolved_limit _ _ "f" ⟨fReg, some "x", none, none, "ok"⟩
        rfl hres rfl hlim]
      have hterm : response advOracle 1
          ({ withRound st (advOracle msgs st.tool_choice) with
              function_call_stack :=
                some ((withRound st (advOracle msgs st.tool_choice)).function_call_stack.getD []),
              tool_choice := some "none" })
          ((msgs ++ [mkAssistant (advOracle msgs st.tool_choice)]) ++
            [limitFnMsg (withRound st (advOracle msgs st.tool_choice)).function_call_limit]) =
          some ("done",
            withRound ({ withRound st (advOracle msgs st.tool_choice) with
              function_call_stack :=
                some ((withRound st (advOracle msgs st.tool_choice)).function_call_stack.getD []),
              tool_choice := some "none" }) { content := some "done" },
            ((msgs ++ [mkAssistant (advOracle msgs st.tool_choice)]) ++
              [limitFnMsg (withRound st (advOracle msgs st.tool_choice)).function_call_limit]) ++
              [mkAssistant { content := some "done" }]) := by
        rw [show response advOracle 1 = fun a b =>
          responseRound advOracle (response advOracle 0) a b from rfl]
        exact responseRound_eq_terminal advOracle _ _ _ rfl rfl
      rw [hterm]
      refine ⟨_, _, _, rfl, ?_⟩
      apply List.mem_append_left
      apply List.mem_append_right
      rw [show (withRound st (advOracle msgs st.tool_choice)).function_call_limit =
        st.function_call_limit from rfl]
      simp
  | succ j ih =>
      intro st msgs hfns hrt htc hlen
      have hadv : advOracle msgs st.tool_choice = selfCallResp := by
        unfold advOracle
        rw [htc]
        simp
      rw [show response advOracle (j + 1 + 2) st msgs =
        responseRound advOracle (response advOracle (j + 2)) st msgs from rfl]
      rw [responseRound_eq_legacy advOracle _ st msgs ⟨some "f", some "x"⟩
        (by rw [hadv]; rfl) hrt]
      have hres : get_function_call "f" (some "x")
          (withRound st (advOracle msgs st.tool_choice)).functions =
          some ⟨fReg, some "x", none, none, "ok"⟩ := by
        rw [withRound_functions, hfns]
        rfl
      have hlim : ¬ ((withRound st (advOracle msgs st.tool_choice)).function_call_stack.getD
          []).length > (withRound st (advOracle msgs st.tool_choice)).function_call_limit := by
        rw [(withRound_stack st _).1, (withRound_stack st _).2]
        omega
      have hT := run_function_resolved_exec
        (withRound st (advOracle msgs st.tool_choice)) ⟨some "f", some "x"⟩
        "f" ⟨fReg, some "x", none, none, "ok"⟩ rfl hres rfl hlim
      obtain ⟨out, stF, msgsF, hrun, hmem⟩ :=
        ih ((run_function (withRound st (advOracle msgs st.tool_choice))
              ⟨some "f", some "x"⟩).2.2)
          ((msgs ++ [mkAssistant (advOracle msgs st.tool_choice)]) ++
            [(run_function (withRound st (advOracle msgs st.tool_choice))
              ⟨some "f", some "x"⟩).1])
          (by rw [hT]; exact hfns)
          (by rw [hT]; exact hrt)
          (by rw [hT]; exact htc)
          (by
            rw [hT]
            simp only [(withRound_stack st _).1, (withRound_stack st _).2,
              Option.getD_some, List.length_append, List.length_cons,
              List.length_nil]
            omega)
      have hliml : (run_function (withRound st (advOracle msgs st.tool_choice))
          ⟨some "f", some "x"⟩).2.2.function_call_limit = st.function_call_limit := by
        rw [hT]
        rfl
      rw [hliml] at hmem
      rw [hrun]
      exact ⟨_, _, _, rfl, hmem⟩

/-- Counterexample to claim C5: with depth limit 0 and the self-calling
model, the run does not terminate within 0 + 1 model rounds: one round of
fuel is exhausted before any terminal answer. -/
theorem c5_counterexample :
    response advOracle (0 + 1) (limitSt 0) [] = none := rfl

/-- Claim C5 as amended: with depth limit N and a model that requests the
registered function until call requests are disabled and then answers with
content, the run terminates within N + 3 rounds and the final history
contains the limit-exceeded result message; a model that keeps requesting
calls while ignoring the disabled tool choice recurses forever (no fuel
suffices). -/
theorem c5_amended_termination :
    (∀ N : Nat, ∃ out stF msgsF,
      response advOracle (N + 3) (limitSt N) [] = some (out, stF, msgsF) ∧
      limitFnMsg N ∈ msgsF) ∧
    (∀ (fuel : Nat) (st : GState) (msgs : List Message), st.run_tools = true →
      response alwaysCallOracle fuel st msgs = none) := by
  constructor
  · intro N
    have h := c5_run_lemma (N + 1) (limitSt N) [] rfl rfl rfl
      (by simp [limitSt])
    exact h
  · intro fuel
    induction fuel with
    | zero => intro st msgs hrt; rfl
    | succ f ih =>
        intro st msgs hrt
        rw [show response alwaysCallOracle (f + 1) st msgs =
          responseRound alwaysCallOracle (response alwaysCallOracle f) st msgs from rfl]
        rw [responseRound_eq_legacy alwaysCallOracle _ st msgs ⟨some "f", some "x"⟩
          rfl hrt]
        rw [ih _ _ (by rw [run_function_preserves_run_tools, withRound_run_tools, hrt])]
        rfl

/-- Witness for C5 as amended: the depth-limit-1 run terminates within four
rounds with the limit message in history, and the stubborn model makes a
three-round budget insufficient. -/
theorem c5_amended_termination_witness :
    (∃ out stF msgsF,
      response advOracle (1 + 3) (limitSt 1) [] = some (out, stF, msgsF) ∧
      limitFnMsg 1 ∈ msgsF) ∧
    response alwaysCallOracle 3 (limitSt 1) [] = none :=
  ⟨c5_amended_termination.1 1, c5_amended_termination.2 3 (limitSt 1) [] rfl⟩

/-- Appending one duration entry grows the total entry count by one,
whether or not the function name already has a bucket. -/
theorem fctAppend_sum (l : List (String × List Nat)) :
    ∀ (n : String) (t : Nat),
      ((fctAppend l n t).map (fun p => p.2.length)).sum =
        ((l.map (fun p => p.2.length)).sum) + 1 := by
  induction l with
  | nil => intro n t; simp [fctAppend]
  | cons p rest ih =>
      intro n t
      rcases p with ⟨k, ts⟩
      by_cases hk : (k == n) = true
      · simp [fctAppend, hk]
        omega
      · simp only [fctAppend, hk, if_false, Bool.false_eq_true, List.map_cons,
          List.sum_cons, ih]
        omega

/-- The round bookkeeping appends exactly one entry to `response_times`. -/
theorem recordRound_rt (m : Metrics) (u : Option (Nat × Nat × Nat)) :
    (recordRound m u).response_times = some (m.response_times.getD [] ++ [0]) := by
  cases u with
  | none => rfl
  | some triple => rcases triple with ⟨p, c, t⟩; rfl

/-- The round bookkeeping does not touch the function-call timing lists. -/
theorem recordRound_fct (m : Metrics) (u : Option (Nat × Nat × Nat)) :
    (recordRound m u).function_call_times = m.function_call_times := by
  cases u with
  | none => rfl
  | some triple => rcases triple with ⟨p, c, t⟩; rfl

/-- Effect of one legacy call on the accumulator and its result message:
`response_times` is untouched, and the timing-entry total grows exactly by
the number of executed-call messages produced (one on the execute branch,
none on refusals and failures), with the message role being "function". -/
theorem run_function_effects (st : GState) (d : FcDict) :
    (run_function st d).2.2.metrics.response_times = st.metrics.response_times ∧
    fctTotal (run_function st d).2.2.metrics =
      fctTotal st.metrics + countExec [(run_function st d).1] ∧
    (run_function st d).1.role = "function" := by
  unfold run_function
  cases hn : d.name with
  | none => exact ⟨rfl, by simp [countExec, fctTotal], rfl⟩
  | some n =>
      simp only [hn]
      cases hres : get_function_call n d.arguments st.functions with
      | none => exact ⟨rfl, by simp [countExec, fctTotal], rfl⟩
      | some fc =>
          simp only [hres]
          cases herr : fc.error with
          | some e => exact ⟨rfl, by simp [countExec, fctTotal], rfl⟩
          | none =>
              simp only [herr]
              split
              · exact ⟨rfl, by simp [countExec, fctTotal], rfl⟩
              · refine ⟨rfl, ?_, rfl⟩
                simp [countExec, fctTotal, fctAppend_sum]

/-- Counting over a cons whose head satisfies the predicate. -/
theorem countP_cons_true {α : Type} {p : α → Bool} (m : α) (l : List α)
    (h : p m = true) : List.countP p (m :: l) = List.countP p l + 1 := by
  rw [List.countP_cons, h]
  rfl

/-- Counting over a cons whose head fails the predicate. -/
theorem countP_cons_false {α : Type} {p : α → Bool} (m : α) (l : List α)
    (h : p m = false) : List.countP p (m :: l) = List.countP p l := by
  rw [List.countP_cons, h]
  rfl

/-- Resolution-failure messages are neither assistant messages nor
executed-call results. -/
theorem resolveToolCalls_counts (fns : List RegFunction) (tcs : List ToolCallRec) :
    countAssistant (resolveToolCalls fns tcs).1 = 0 ∧
    countExec (resolveToolCalls fns tcs).1 = 0 := by
  induction tcs with
  | nil => exact ⟨rfl, rfl⟩
  | cons tc rest ih =>
      obtain ⟨h1, h2⟩ := ih
      unfold countAssistant at h1 ⊢
      unfold countExec at h2 ⊢
      unfold resolveToolCalls
      cases hres : get_function_call_for_tool_call tc fns with
      | none =>
          simp only [hres]
          exact ⟨by rw [countP_cons_false _ _ rfl]; exact h1,
                 by rw [countP_cons_false _ _ rfl]; exact h2⟩
      | some fc =>
          simp only [hres]
          cases herr : fc.error with
          | some e =>
              simp only [herr]
              exact ⟨by rw [countP_cons_false _ _ rfl]; exact h1,
                     by rw [countP_cons_false _ _ rfl]; exact h2⟩
          | none =>
              simp only [herr]
              exact ⟨h1, h2⟩

/-- Executor step when the stack already exceeds the limit: refusal message
and recursion with call requests disabled. -/
theorem run_function_calls_cons_limit (st : GState) (fc : FunctionCall)
    (rest : List FunctionCall)
    (h : (st.function_call_stack.getD []).length > st.function_call_limit) :
    run_function_calls st (fc :: rest) =
      ({ role := "tool", tool_call_id := fc.call_id,
         content := some ("Function call limit (" ++
           toString st.function_call_limit ++ ") exceeded.") } ::
        (run_function_calls { st with
          function_call_stack := some (st.function_call_stack.getD []),
          tool_choice := some "none" } rest).1,
       (run_function_calls { st with
          function_call_stack := some (st.function_call_stack.getD []),
          tool_choice := some "none" } rest).2) := by
  simp [run_function_calls, h]

/-- Executor step under the limit: push, execute, record, recurse. -/
theorem run_function_calls_cons_exec (st : GState) (fc : FunctionCall)
    (rest : List FunctionCall)
    (h : ¬ (st.function_call_stack.getD []).length > st.function_call_limit) :
    run_function_calls st (fc :: rest) =
      ({ role := "tool", name := some fc.function.fname, tool_call_id := fc.call_id,
         content := some fc.result, metricsTime := some 0 } ::
        (run_function_calls { st with
          function_call_stack := some (st.function_call_stack.getD [] ++ [fc]),
          metrics := { st.metrics with
            function_call_times :=
              some (fctAppend (st.metrics.function_call_times.getD [])
                fc.function.fname 0) } } rest).1,
       (run_function_calls { st with
          function_call_stack := some (st.function_call_stack.getD [] ++ [fc]),
          metrics := { st.metrics with
            function_call_times :=
              some (fctAppend (st.metrics.function_call_times.getD [])
                fc.function.fname 0) } } rest).2) := by
  simp [run_function_calls, h]

/-- Effect of the sequential tool-call executor: `response_times` is
untouched, the timing-entry total grows by the number of executed-call
messages produced, and no produced message is an assistant message. -/
theorem run_function_calls_effects (fcs : List FunctionCall) :
    ∀ st : GState,
      (run_function_calls st fcs).2.metrics.response_times =
        st.metrics.response_times ∧
      fctTotal (run_function_calls st fcs).2.metrics =
        fctTotal st.metrics + countExec (run_function_calls st fcs).1 ∧
      countAssistant (run_function_calls st fcs).1 = 0 := by
  induction fcs with
  | nil => intro st; exact ⟨rfl, rfl, rfl⟩
  | cons fc rest ih =>
      intro st
      by_cases hlim : (st.function_call_stack.getD []).length > st.function_call_limit
      · rw [run_function_calls_cons_limit st fc rest hlim]
        obtain ⟨g1, g2, g3⟩ := ih ({ st with
          function_call_stack := some (st.function_call_stack.getD []),
          tool_choice := some "none" } : GState)
        refine ⟨g1, ?_, ?_⟩
        · unfold countExec at g2 ⊢
          rw [countP_cons_false _ _ rfl]
          exact g2
        · unfold countAssistant at g3 ⊢
          rw [countP_cons_false _ _ rfl]
          exact g3
      · rw [run_function_calls_cons_exec st fc rest hlim]
        obtain ⟨g1, g2, g3⟩ := ih ({ st with
          function_call_stack := some (st.function_call_stack.getD [] ++ [fc]),
          metrics := { st.metrics with
            function_call_times :=
              some (fctAppend (st.metrics.function_call_times.getD [])
                fc.function.fname 0) } } : GState)
        refine ⟨g1, ?_, ?_⟩
        · unfold countExec at g2 ⊢
          rw [countP_cons_true _ _ rfl, g2]
          have hone : fctTotal ({ st with
              function_call_stack := some (st.function_call_stack.getD [] ++ [fc]),
              metrics := { st.metrics with
                function_call_times :=
                  some (fctAppend (st.metrics.function_call_times.getD [])
                    fc.function.fname 0) } } : GState).metrics =
              fctTotal st.metrics + 1 := by
            unfold fctTotal
            simp [fctAppend_sum]
          rw [hone]
          omega
        · unfold countAssistant at g3 ⊢
          rw [countP_cons_false _ _ rfl]
          exact g3

/-- The timing-entry total only depends on the timing lists. -/
theorem fctTotal_recordRound (m : Metrics) (u : Option (Nat × Nat × Nat)) :
    fctTotal (recordRound m u) = fctTotal m := by
  unfold fctTotal
  rw [recordRound_fct]

/-- The round bookkeeping grows `response_times` by exactly one entry. -/
theorem recordRound_rt_length (m : Metrics) (u : Option (Nat × Nat × Nat)) :
    ((recordRound m u).response_times.getD []).length =
      (m.response_times.getD []).length + 1 := by
  rw [recordRound_rt]
  simp

/-- Claim C7: over any completed run, each model round appends exactly one
assistant message and one `response_times` entry, and each function
execution appends exactly one executed-call result message and one
`function_call_times` entry; so the final history tail determines both
counters: `response_times` grew by the number of assistant messages
appended and the timing-entry total by the number of executed-call result
messages appended, never resetting. -/
theorem c7_metrics_monotonic (oracle : Oracle)
    (hrole : ∀ (ms : List Message) (tc : Option String),
      ((oracle ms tc).role).getD "assistant" = "assistant") :
    ∀ (fuel : Nat) (st : GState) (msgs : List Message) (out : RunOut),
      response oracle fuel st msgs = some out →
      ∃ tail, out.2.2 = msgs ++ tail ∧
        (out.2.1.metrics.response_times.getD []).length =
          (st.metrics.response_times.getD []).length + countAssistant tail ∧
        fctTotal out.2.1.metrics = fctTotal st.metrics + countExec tail := by
  intro fuel
  induction fuel with
  | zero => intro st msgs out h; cases h
  | succ f ih =>
      intro st msgs out h
      rcases out with ⟨s, stO, msgsO⟩
      dsimp only
      rw [show response oracle (f + 1) st msgs =
        responseRound oracle (response oracle f) st msgs from rfl] at h
      have hamrole : ((mkAssistant (oracle msgs st.tool_choice)).role == "assistant") =
          true := by
        rw [show (mkAssistant (oracle msgs st.tool_choice)).role =
          "assistant" from hrole msgs st.tool_choice]
        rfl
      have hamexec : ((fun (m : Message) =>
          m.name.isSome && (m.role == "function" || m.role == "tool"))
          (mkAssistant (oracle msgs st.tool_choice))) = false := rfl
      have hWrt : (((withRound st (oracle msgs st.tool_choice)).metrics.response_times).getD
          []).length = (st.metrics.response_times.getD []).length + 1 :=
        recordRound_rt_length st.metrics (oracle msgs st.tool_choice).usage
      have hWfct : fctTotal (withRound st (oracle msgs st.tool_choice)).metrics =
          fctTotal st.metrics :=
        fctTotal_recordRound st.metrics (oracle msgs st.tool_choice).usage
      by_cases hrt : st.run_tools = true
      · cases hfc : (oracle msgs st.tool_choice).function_call with
        | some fcd =>
            rw [responseRound_eq_legacy oracle _ st msgs fcd hfc hrt] at h
            rw [Option.map_eq_some'] at h
            obtain ⟨q, hq, hout⟩ := h
            rcases q with ⟨qs, qst, qms⟩
            obtain ⟨tail', ht1, ht2, ht3⟩ := ih _ _ _ hq
            dsimp only at ht1 ht2 ht3
            obtain ⟨e1, e2, e3⟩ :=
              run_function_effects (withRound st (oracle msgs st.tool_choice)) fcd
            have hsO : stO = qst := (congrArg (fun p => p.2.1) hout).symm
            have hmO : msgsO = qms := (congrArg (fun p => p.2.2) hout).symm
            subst hsO
            subst hmO
            refine ⟨mkAssistant (oracle msgs st.tool_choice) ::
              (run_function (withRound st (oracle msgs st.tool_choice)) fcd).1 :: tail',
              ?_, ?_, ?_⟩
            · rw [ht1]
              simp
            · unfold countAssistant
              rw [@countP_cons_true Message (fun m => m.role == "assistant")
                (mkAssistant (oracle msgs st.tool_choice)) _ hamrole]
              rw [@countP_cons_false Message (fun m => m.role == "assistant")
                (run_function (withRound st (oracle msgs st.tool_choice)) fcd).1 _
                (by
                  show ((run_function (withRound st
                    (oracle msgs st.tool_choice)) fcd).1.role == "assistant") = false
                  rw [e3]
                  decide)]
              unfold countAssistant at ht2
              rw [ht2, e1, hWrt]
              omega
            · unfold countExec
              rw [@countP_cons_false Message (fun m =>
                m.name.isSome && (m.role == "function" || m.role == "tool"))
                (mkAssistant (oracle msgs st.tool_choice)) _ hamexec]
              have hcons : List.countP (fun (m : Message) =>
                  m.name.isSome && (m.role == "function" || m.role == "tool"))
                  ((run_function (withRound st (oracle msgs st.tool_choice)) fcd).1 ::
                    tail') =
                  List.countP (fun m =>
                    m.name.isSome && (m.role == "function" || m.role == "tool")) tail' +
                  List.countP (fun m =>
                    m.name.isSome && (m.role == "function" || m.role == "tool"))
                    [(run_function (withRound st (oracle msgs st.tool_choice)) fcd).1] := by
                rw [List.countP_cons, List.countP_cons, List.countP_nil]
                omega
              rw [hcons]
              unfold countExec at ht3 e2
              rw [ht3, e2, hWfct]
              omega
        | none =>
            cases htc : (oracle msgs st.tool_choice).tool_calls with
            | some tcs =>
                rw [responseRound_eq_tool oracle _ st msgs tcs hfc htc hrt] at h
                rw [Option.map_eq_some'] at h
                obtain ⟨q, hq, hout⟩ := h
                rcases q with ⟨qs, qst, qms⟩
                obtain ⟨tail', ht1, ht2, ht3⟩ := ih _ _ _ hq
                dsimp only at ht1 ht2 ht3
                obtain ⟨r1, r2⟩ := resolveToolCalls_counts st.functions tcs
                obtain ⟨g1, g2, g3⟩ := run_function_calls_effects
                  (resolveToolCalls st.functions tcs).2
                  (withRound st (oracle msgs st.tool_choice))
                have hsO : stO = qst := (congrArg (fun p => p.2.1) hout).symm
                have hmO : msgsO = qms := (congrArg (fun p => p.2.2) hout).symm
                subst hsO
                subst hmO
                refine ⟨mkAssistant (oracle msgs st.tool_choice) ::
                  ((resolveToolCalls st.functions tcs).1 ++
                    ((run_function_calls (withRound st (oracle msgs st.tool_choice))
                      (resolveToolCalls st.functions tcs).2).1 ++ tail')),
                  ?_, ?_, ?_⟩
                · rw [ht1]
                  simp
                · unfold countAssistant
                  rw [@countP_cons_true Message (fun m => m.role == "assistant")
                    (mkAssistant (oracle msgs st.tool_choice)) _ hamrole]
                  rw [List.countP_append, List.countP_append]
                  unfold countAssistant at ht2 r1 g3
                  rw [ht2, g1, hWrt, r1, g3]
                  omega
                · unfold countExec
                  rw [@countP_cons_false Message (fun m =>
                    m.name.isSome && (m.role == "function" || m.role == "tool"))
                    (mkAssistant (oracle msgs st.tool_choice)) _ hamexec]
                  rw [List.countP_append, List.countP_append]
                  unfold countExec at ht3 r2 g2
                  rw [ht3, g2, hWfct, r2]
                  omega
            | none =>
                rw [responseRound_eq_terminal oracle _ st msgs hfc htc] at h
                have hout := Option.some.inj h
                have hsO : stO = withRound st (oracle msgs st.tool_choice) :=
                  (congrArg (fun p => p.2.1) hout).symm
                have hmO : msgsO =
                    msgs ++ [mkAssistant (oracle msgs st.tool_choice)] :=
                  (congrArg (fun p => p.2.2) hout).symm
                subst hsO
                subst hmO
                refine ⟨[mkAssistant (oracle msgs st.tool_choice)], rfl, ?_, ?_⟩
                · unfold countAssistant
                  rw [@countP_cons_true Message (fun m => m.role == "assistant")
                    (mkAssistant (oracle msgs st.tool_choice)) _ hamrole]
                  rw [hWrt]
                  rfl
                · unfold countExec
                  rw [@countP_cons_false Message (fun m =>
                    m.name.isSome && (m.role == "function" || m.role == "tool"))
                    (mkAssistant (oracle msgs st.tool_choice)) _ hamexec]
                  rw [hWfct]
                  rfl
      · have hrf : st.run_tools = false := by
          cases hb : st.run_tools with
          | true => exact absurd hb hrt
          | false => rfl
        rw [responseRound_eq_noRun oracle _ st msgs hrf] at h
        have hout := Option.some.inj h
        have hsO : stO = withRound st (oracle msgs st.tool_choice) :=
          (congrArg (fun p => p.2.1) hout).symm
        have hmO : msgsO = msgs ++ [mkAssistant (oracle msgs st.tool_choice)] :=
          (congrArg (fun p => p.2.2) hout).symm
        subst hsO
        subst hmO
        refine ⟨[mkAssistant (oracle msgs st.tool_choice)], rfl, ?_, ?_⟩
        · unfold countAssistant
          rw [@countP_cons_true Message (fun m => m.role == "assistant")
            (mkAssistant (oracle msgs st.tool_choice)) _ hamrole]
          rw [hWrt]
          rfl
        · unfold countExec
          rw [@countP_cons_false Message (fun m =>
            m.name.isSome && (m.role == "function" || m.role == "tool"))
            (mkAssistant (oracle msgs st.tool_choice)) _ hamexec]
          rw [hWfct]
          rfl

/-- Witness for C7: a two-round run (one executed call, then a terminal
content round) satisfies the counting characterization. -/
theorem c7_metrics_monotonic_witness :
    ∃ out, response (fun ms _ => if ms.length == 0 then selfCallResp
        else { content := some "done" }) 2 (limitSt 5) [] = some out ∧
      ∃ tail, out.2.2 = ([] : List Message) ++ tail ∧
        (out.2.1.metrics.response_times.getD []).length =
          ((limitSt 5).metrics.response_times.getD []).length + countAssistant tail ∧
        fctTotal out.2.1.metrics = fctTotal (limitSt 5).metrics + countExec tail :=
  ⟨_, rfl,
    c7_metrics_monotonic
      (fun ms _ => if ms.length == 0 then selfCallResp else { content := some "done" })
      (by
        intro ms tc
        dsimp only
        by_cases hq : (ms.length == 0) = true
        · rw [if_pos hq]
          rfl
        · rw [if_neg hq]
          rfl)
      2 (limitSt 5) [] _ rfl⟩
